import Mathlib

/-!
H.264 helper functions of the CODA video codec driver.

A shallow embedding of `drivers/media/platform/coda/coda-h264.c`.

Conventions of the embedding.

* A byte buffer (`char *` / `u8 *`) is a `List Byte`, with `Byte = Fin 256`
  holding the bit pattern of the byte; a pointer into a buffer is a byte
  offset.
* Every function that dereferences a pointer returns an `Option`; `none`
  stands for an execution that is undefined in C: an access outside the
  buffer, or an `int` computation that leaves the range of `int`.
* `int` values that the code keeps non-negative (cursor positions, code
  numbers, sizes, picture dimensions) are natural numbers. The cursor `pos`
  counts bits, so buffers are taken to be shorter than `2 ^ 28` bytes.
-/

namespace CodaH264


/-! ## Bytes, constants and kernel helpers -/

/-- A byte of a buffer, as its bit pattern. -/
abbrev Byte := Fin 256

/-- Truncation of an `int` expression to the `char` it is stored in. -/
def toByte (x : Nat) : Byte := ⟨x % 256, Nat.mod_lt x (by decide)⟩

/-- The largest value of a C `int`. -/
def INT_MAX : Nat := 2147483647

/-- The error number `EINVAL`. -/
def EINVAL : Int := 22

/-- Modelled from the spec: the kernel macro `BIT(n)`, not under src/, is the
word with only bit `n` set. -/
def BIT (n : Nat) : Nat := 1 <<< n

/-- Loop of `fls`: the number of binary digits of `x`, at most `fuel`. -/
def flsAux : Nat → Nat → Nat
  | 0, _ => 0
  | fuel + 1, x => if x = 0 then 0 else flsAux fuel (x / 2) + 1

/-- Modelled from the spec: the kernel helper `fls`, not under src/, gives the
number of bits of its 32-bit argument ("number of bits in `tmp`"), and 0 for 0. -/
def fls (x : Nat) : Nat := flsAux 32 x

/-- Modelled from the spec: the kernel macro `round_up(x, y)`, not under src/,
is the least multiple of `y` that is at least `x`. -/
def round_up (x y : Nat) : Nat := (x + (y - 1)) / y * y

/-- Modelled from the spec: the kernel macro `DIV_ROUND_UP(n, d)`, not under
src/, is `ceil(n / d)`. -/
def DIV_ROUND_UP (n d : Nat) : Nat := (n + d - 1) / d

/-! ## NAL locator (`coda_find_nal_header`) -/

/-- The body of the `do ... while` loop of `coda_find_nal_header`; `buf` and
`end_` are byte offsets into `mem`. -/
def coda_find_nal_header_loop : Nat → List Byte → Nat → Nat → Nat → Option (Option Nat)
  | 0, _, _, _, _ => none
  | fuel + 1, mem, val, buf, end_ =>
    match mem[buf]? with
    | none => none
    | some b =>
      let val1 := ((val <<< 8) % 4294967296) ||| b.val
      if buf + 1 ≥ end_ then some none
      else if val1 ≠ 0x00000001 then coda_find_nal_header_loop fuel mem val1 (buf + 1) end_
      else some (some (buf + 1))

/-- `coda_find_nal_header`: `some none` is the `NULL` result, `some (some p)`
the pointer to offset `p`. -/
def coda_find_nal_header (mem : List Byte) (buf end_ : Nat) : Option (Option Nat) :=
  coda_find_nal_header_loop (end_ - buf + 1) mem 0xffffffff buf end_

/-- The fields of `ctx->params` that `coda_sps_parse_profile` stores. -/
structure CodaParams where
  h264_profile_idc : Nat
  h264_level_idc : Nat
deriving DecidableEq, Repr

/-- The `do ... while` loop of `coda_sps_parse_profile`; the result is `buf`
after `*buf++`, or `NULL` (`some none`) when the locator fails. -/
def coda_sps_parse_profile_loop : Nat → List Byte → Nat → Nat → Option (Option Nat)
  | 0, _, _, _ => none
  | fuel + 1, mem, buf, end_ =>
    match coda_find_nal_header mem buf end_ with
    | none => none
    | some none => some none
    | some (some buf1) =>
      match mem[buf1]? with
      | none => none
      | some b =>
        if (b.val &&& 0x1f) ≠ 0x7 then coda_sps_parse_profile_loop fuel mem (buf1 + 1) end_
        else some (some (buf1 + 1))

/-- `coda_sps_parse_profile`: the return value and the stored profile and
level; `mem` is the plane of the buffer, `payload` its payload length. -/
def coda_sps_parse_profile (ctx : CodaParams) (mem : List Byte) (payload : Nat) :
    Option (Int × CodaParams) :=
  match coda_sps_parse_profile_loop (payload + 1) mem 0 payload with
  | none => none
  | some none => some (-EINVAL, ctx)
  | some (some buf) =>
    match mem[buf]?, mem[buf + 2]? with
    | some profile, some level =>
      some (0, { h264_profile_idc := profile.val, h264_level_idc := level.val })
    | _, _ => none

/-! ## Filler padding (`coda_h264_filler_nal`, `coda_h264_padding`) -/

/-- The table `coda_filler_size`. -/
def coda_filler_size : List Nat := [0, 7, 14, 13, 12, 11, 10, 9]

/-- The store `p[i] = v`; outside the buffer it is undefined. -/
def store (p : List Byte) (i : Nat) (v : Byte) : Option (List Byte) :=
  if i < p.length then some (p.set i v) else none

/-- Modelled from the spec: the library function `memset`, not under src/,
stores the byte `c` into the `n` bytes from offset `ofs` on. -/
def memset : List Byte → Nat → Byte → Nat → Option (List Byte)
  | p, _, _, 0 => some p
  | p, ofs, c, n + 1 =>
    match store p ofs c with
    | none => none
    | some p1 => memset p1 (ofs + 1) c n

/-- `coda_h264_filler_nal`: the return value and the buffer after the call. -/
def coda_h264_filler_nal (size : Int) (p : List Byte) : Option (Int × List Byte) :=
  if size < 6 then some (-EINVAL, p)
  else do
    let p ← store p 0 0x00
    let p ← store p 1 0x00
    let p ← store p 2 0x00
    let p ← store p 3 0x01
    let p ← store p 4 0x0c
    let p ← memset p 5 0xff (size - 6).toNat
    let p ← store p (size - 1).toNat 0x80
    pure (0, p)

/-- `coda_h264_padding`: the return value and the buffer after the call.
`size & ~0x7` is taken on the 32-bit pattern of the non-negative `size`. -/
def coda_h264_padding (size : Nat) (p : List Byte) : Option (Int × List Byte) :=
  let diff := size - (size &&& 0xfffffff8)
  if diff = 0 then some (0, p)
  else
    match coda_filler_size[diff]? with
    | none => none
    | some nal_size =>
      match coda_h264_filler_nal nal_size p with
      | none => none
      | some (_, p1) => some (nal_size, p1)

/-! ## Profile and level tables (`coda_h264_profile`, `coda_h264_level`) -/

/-- Modelled from the spec: the host enumeration `V4L2_MPEG_VIDEO_H264_PROFILE_*`
of videodev2.h, not under src/, restricted to the values the driver returns. -/
inductive H264Profile where
  | BASELINE | MAIN | EXTENDED | HIGH
deriving DecidableEq, Repr

/-- Modelled from the spec: the host enumeration `V4L2_MPEG_VIDEO_H264_LEVEL_*`
of videodev2.h, not under src/, levels 1.0 through 4.1 with 1b. -/
inductive H264Level where
  | L1_0 | L1B | L1_1 | L1_2 | L1_3 | L2_0 | L2_1 | L2_2 | L3_0 | L3_1 | L3_2 | L4_0 | L4_1
deriving DecidableEq, Repr

/-- Equality of results of type `Except` is decidable. -/
instance instDecidableEqExcept {ε α : Type} [DecidableEq ε] [DecidableEq α] :
    DecidableEq (Except ε α) := fun a b =>
  match a, b with
  | .ok x, .ok y =>
    if h : x = y then isTrue (congrArg Except.ok h)
    else isFalse (fun e => h (Except.ok.inj e))
  | .error x, .error y =>
    if h : x = y then isTrue (congrArg Except.error h)
    else isFalse (fun e => h (Except.error.inj e))
  | .ok _, .error _ => isFalse (fun e => Except.noConfusion e)
  | .error _, .ok _ => isFalse (fun e => Except.noConfusion e)

/-- `coda_h264_profile`: the enumeration value, or the error code `-EINVAL`. -/
def coda_h264_profile (profile_idc : Int) : Except Int H264Profile :=
  if profile_idc = 66 then .ok .BASELINE
  else if profile_idc = 77 then .ok .MAIN
  else if profile_idc = 88 then .ok .EXTENDED
  else if profile_idc = 100 then .ok .HIGH
  else .error (-EINVAL)

/-- `coda_h264_level`: the enumeration value, or the error code `-EINVAL`. -/
def coda_h264_level (level_idc : Int) : Except Int H264Level :=
  if level_idc = 10 then .ok .L1_0
  else if level_idc = 9 then .ok .L1B
  else if level_idc = 11 then .ok .L1_1
  else if level_idc = 12 then .ok .L1_2
  else if level_idc = 13 then .ok .L1_3
  else if level_idc = 20 then .ok .L2_0
  else if level_idc = 21 then .ok .L2_1
  else if level_idc = 22 then .ok .L2_2
  else if level_idc = 30 then .ok .L3_0
  else if level_idc = 31 then .ok .L3_1
  else if level_idc = 32 then .ok .L3_2
  else if level_idc = 40 then .ok .L4_0
  else if level_idc = 41 then .ok .L4_1
  else .error (-EINVAL)

/-! ## Bit cursor (`struct rbsp`) -/

/-- The cursor `struct rbsp`: the buffer `buf` points to, and the bit position. -/
structure Rbsp where
  buf : List Byte
  pos : Nat
deriving DecidableEq, Repr

/-- `rbsp_read_bit`: the bit under the cursor, and the advanced cursor. -/
def rbsp_read_bit (rbsp : Rbsp) : Option (Nat × Rbsp) :=
  let shift := 7 - rbsp.pos % 8
  let ofs := rbsp.pos / 8
  match rbsp.buf[ofs]? with
  | none => none
  | some b => some ((b.val >>> shift) &&& 1, { rbsp with pos := rbsp.pos + 1 })

/-- `rbsp_write_bit`: clear the bit under the cursor, or in `bit << shift`,
advance the cursor. -/
def rbsp_write_bit (rbsp : Rbsp) (bit : Nat) : Option Rbsp :=
  let shift := 7 - rbsp.pos % 8
  let ofs := rbsp.pos / 8
  match rbsp.buf[ofs]? with
  | none => none
  | some b =>
    let cleared := b.val &&& (0xff ^^^ BIT shift)
    some { buf := rbsp.buf.set ofs (toByte (cleared ||| (bit <<< shift))),
           pos := rbsp.pos + 1 }

/-- The `for` loop of `rbsp_read_bits` with `n` iterations left; in the
iteration with index `i = num - (n + 1)` the shift `num - i - 1` is `n`. -/
def rbsp_read_bits_loop : Nat → Nat → Rbsp → Option (Nat × Rbsp)
  | 0, ret, rbsp => some (ret, rbsp)
  | n + 1, ret, rbsp =>
    match rbsp_read_bit rbsp with
    | none => none
    | some (bit, rbsp1) => rbsp_read_bits_loop n (ret ||| (bit <<< n)) rbsp1

/-- `rbsp_read_bits`: `num` bits, first bit most significant. A shift that
can reach the sign bit of `int` is undefined, so `num` is at most 31. -/
def rbsp_read_bits (rbsp : Rbsp) (num : Nat) : Option (Nat × Rbsp) :=
  if 31 < num then none else rbsp_read_bits_loop num 0 rbsp

/-- `rbsp_write_bits`: `while (num--) rbsp_write_bit(rbsp, (value >> num) & 1)`. -/
def rbsp_write_bits : Rbsp → Nat → Nat → Option Rbsp
  | rbsp, 0, _ => some rbsp
  | rbsp, num + 1, value =>
    match rbsp_write_bit rbsp ((value >>> num) &&& 1) with
    | none => none
    | some rbsp1 => rbsp_write_bits rbsp1 num value

/-! ## Exp-Golomb codec -/

/-- The `while (!rbsp_read_bit(rbsp)) leading_zero_bits++` loop of
`rbsp_read_uev`. Every iteration reads one bit of the buffer, so `fuel`
beyond the number of bits of the buffer is never used up. -/
def rbsp_read_uev_loop : Nat → Nat → Rbsp → Option (Nat × Rbsp)
  | 0, _, _ => none
  | fuel + 1, leading_zero_bits, rbsp =>
    match rbsp_read_bit rbsp with
    | none => none
    | some (bit, rbsp1) =>
      if bit = 0 then rbsp_read_uev_loop fuel (leading_zero_bits + 1) rbsp1
      else some (leading_zero_bits, rbsp1)

/-- `rbsp_read_uev`: unsigned Exp-Golomb code number under the cursor.
`1 << leading_zero_bits` overflows `int` from 31 leading zero bits on. -/
def rbsp_read_uev (rbsp : Rbsp) : Option (Nat × Rbsp) :=
  match rbsp_read_uev_loop (8 * rbsp.buf.length + 1) 0 rbsp with
  | none => none
  | some (leading_zero_bits, rbsp1) =>
    if 31 ≤ leading_zero_bits then none
    else
      match (if 0 < leading_zero_bits then rbsp_read_bits rbsp1 leading_zero_bits
             else some (0, rbsp1)) with
      | none => none
      | some (tmp, rbsp2) => some ((1 <<< leading_zero_bits) - 1 + tmp, rbsp2)

/-- The `for` loop of `rbsp_write_uev` that writes the zero bits. -/
def rbsp_write_uev_loop : Rbsp → Nat → Option Rbsp
  | rbsp, 0 => some rbsp
  | rbsp, n + 1 =>
    match rbsp_write_bit rbsp 0 with
    | none => none
    | some rbsp1 => rbsp_write_uev_loop rbsp1 n

/-- `rbsp_write_uev`: write `value` as an unsigned Exp-Golomb code.
`value + 1` overflows `int` for `value = INT_MAX`. -/
def rbsp_write_uev (rbsp : Rbsp) (value : Nat) : Option Rbsp :=
  if INT_MAX ≤ value then none
  else
    let tmp := value + 1
    let leading_zero_bits := fls tmp - 1
    match rbsp_write_uev_loop rbsp leading_zero_bits with
    | none => none
    | some rbsp1 => rbsp_write_bits rbsp1 (leading_zero_bits + 1) tmp

/-- `rbsp_read_sev`: signed Exp-Golomb value under the cursor. -/
def rbsp_read_sev (rbsp : Rbsp) : Option (Int × Rbsp) :=
  match rbsp_read_uev rbsp with
  | none => none
  | some (tmp, rbsp1) =>
    if tmp &&& 1 ≠ 0 then some ((((tmp + 1) / 2 : Nat) : Int), rbsp1)
    else some (-((tmp / 2 : Nat) : Int), rbsp1)

/-! ## SPS walker and rewriter (`coda_sps_fixup`) -/

/-- Locals of `coda_sps_fixup` after the reads that precede the profile test. -/
structure SpsHeader where
  profile_idc : Nat
  level_idc : Nat
  seq_parameter_set_id : Nat
  sps : Rbsp
deriving DecidableEq, Repr

/-- Locals of `coda_sps_fixup` after `vui_parameters_present_flag` is read;
`pos` is the saved cursor position right after `direct_8x8_inference_flag`. -/
structure SpsFields where
  pic_order_cnt_type : Nat
  max_num_ref_frames : Nat
  gaps_in_frame_num_value_allowed_flag : Nat
  pic_width_in_mbs_minus1 : Nat
  pic_height_in_map_units_minus1 : Nat
  frame_mbs_only_flag : Nat
  direct_8x8_inference_flag : Nat
  pos : Nat
  frame_cropping_flag : Nat
  vui_parameters_present_flag : Nat
  sps : Rbsp
deriving DecidableEq, Repr

/-- The test of `coda_sps_fixup` for the profiles it does not handle. -/
def unsupported_profile (profile_idc : Nat) : Prop :=
  profile_idc = 100 ∨ profile_idc = 110 ∨ profile_idc = 122 ∨
  profile_idc = 244 ∨ profile_idc = 44 ∨ profile_idc = 83 ∨
  profile_idc = 86 ∨ profile_idc = 118 ∨ profile_idc = 128

instance (p : Nat) : Decidable (unsupported_profile p) := by
  unfold unsupported_profile; infer_instance

/-- First part of `coda_sps_fixup`: `sps.buf = buf + 5`, then profile_idc, the
skipped constraint byte, level_idc and seq_parameter_set_id. -/
def coda_sps_fixup_header (buf : List Byte) : Option SpsHeader := do
  let sps : Rbsp := { buf := buf.drop 5, pos := 0 }
  let (profile_idc, sps) ← rbsp_read_bits sps 8
  let sps : Rbsp := { sps with pos := sps.pos + 8 }
  let (level_idc, sps) ← rbsp_read_bits sps 8
  let (seq_parameter_set_id, sps) ← rbsp_read_uev sps
  pure { profile_idc, level_idc, seq_parameter_set_id, sps }

/-- The `for` loop over `offset_for_ref_frame` in `coda_sps_fixup`. -/
def coda_sps_fixup_ref_frames : Nat → Rbsp → Option Rbsp
  | 0, sps => some sps
  | n + 1, sps =>
    match rbsp_read_sev sps with
    | none => none
    | some (_, sps1) => coda_sps_fixup_ref_frames n sps1

/-- The branch of `coda_sps_fixup` on `pic_order_cnt_type`. -/
def coda_sps_fixup_poc (pic_order_cnt_type : Nat) (sps : Rbsp) : Option Rbsp :=
  if pic_order_cnt_type = 0 then do
    let (_, sps) ← rbsp_read_uev sps
    pure sps
  else if pic_order_cnt_type = 1 then do
    let (_, sps) ← rbsp_read_bit sps
    let (_, sps) ← rbsp_read_sev sps
    let (_, sps) ← rbsp_read_sev sps
    let (num_ref_frames_in_pic_order_cnt_cycle, sps) ← rbsp_read_uev sps
    coda_sps_fixup_ref_frames num_ref_frames_in_pic_order_cnt_cycle sps
  else pure sps

/-- Second part of `coda_sps_fixup`: the fields from log2_max_frame_num_minus4
to vui_parameters_present_flag, saving the cursor before frame_cropping_flag. -/
def coda_sps_fixup_fields (sps : Rbsp) : Option SpsFields := do
  let (_, sps) ← rbsp_read_uev sps
  let (pic_order_cnt_type, sps) ← rbsp_read_uev sps
  let sps ← coda_sps_fixup_poc pic_order_cnt_type sps
  let (max_num_ref_frames, sps) ← rbsp_read_uev sps
  let (gaps_in_frame_num_value_allowed_flag, sps) ← rbsp_read_bit sps
  let (pic_width_in_mbs_minus1, sps) ← rbsp_read_uev sps
  let (pic_height_in_map_units_minus1, sps) ← rbsp_read_uev sps
  let (frame_mbs_only_flag, sps) ← rbsp_read_bit sps
  let sps ← (if frame_mbs_only_flag = 0 then (rbsp_read_bit sps).map Prod.snd
             else some sps)
  let (direct_8x8_inference_flag, sps) ← rbsp_read_bit sps
  let pos := sps.pos
  let (frame_cropping_flag, sps) ← rbsp_read_bit sps
  let sps ← (if frame_cropping_flag ≠ 0 then do
               let (_, sps) ← rbsp_read_uev sps
               let (_, sps) ← rbsp_read_uev sps
               let (_, sps) ← rbsp_read_uev sps
               let (_, sps) ← rbsp_read_uev sps
               pure sps
             else some sps)
  let (vui_parameters_present_flag, sps) ← rbsp_read_bit sps
  pure { pic_order_cnt_type, max_num_ref_frames,
         gaps_in_frame_num_value_allowed_flag, pic_width_in_mbs_minus1,
         pic_height_in_map_units_minus1, frame_mbs_only_flag,
         direct_8x8_inference_flag, pos, frame_cropping_flag,
         vui_parameters_present_flag, sps }

/-- The value `coda_sps_fixup` computes for `crop_right`. -/
def crop_right (width : Nat) : Nat := (round_up width 16 - width) / 2

/-- The value `coda_sps_fixup` computes for `crop_bottom`. -/
def crop_bottom (height frame_mbs_only_flag : Nat) : Nat :=
  if frame_mbs_only_flag ≠ 0 then (round_up height 16 - height) / 2
  else (round_up height 16 - height) / 4

/-- Last part of `coda_sps_fixup`: rewind to the saved position and write the
cropping fields, the VUI flag and the stop bit. -/
def coda_sps_fixup_rewrite (width height : Nat) (f : SpsFields) : Option Rbsp := do
  let sps : Rbsp := { f.sps with pos := f.pos }
  let frame_cropping_flag := 1
  let sps ← rbsp_write_bit sps frame_cropping_flag
  let sps ← rbsp_write_uev sps 0
  let sps ← rbsp_write_uev sps (crop_right width)
  let sps ← rbsp_write_uev sps 0
  let sps ← rbsp_write_uev sps (crop_bottom height f.frame_mbs_only_flag)
  let sps ← rbsp_write_bit sps f.vui_parameters_present_flag
  rbsp_write_bit sps 1

/-- `coda_sps_fixup`: the buffer and `*size` after the call. -/
def coda_sps_fixup (width height : Nat) (buf : List Byte) (size : Int) :
    Option (List Byte × Int) :=
  match coda_sps_fixup_header buf with
  | none => none
  | some h =>
    if unsupported_profile h.profile_idc then some (buf, size)
    else
      match coda_sps_fixup_fields h.sps with
      | none => none
      | some f =>
        if f.vui_parameters_present_flag ≠ 0 then some (buf, size)
        else
          match coda_sps_fixup_rewrite width height f with
          | none => none
          | some sps =>
            some (buf.take 5 ++ sps.buf, ((5 + DIV_ROUND_UP sps.pos 8 : Nat) : Int))

/-! ## Specification vocabulary: bits of a buffer, bit lists, start codes -/

/-- Bit `j` of a buffer: bit `7 - j % 8` of byte `j / 8`. -/
def bitAt (buf : List Byte) (j : Nat) : Option Nat :=
  (buf[j / 8]?).map (fun b => (b.val >>> (7 - j % 8)) &&& 1)

/-- The buffer after bit `j` is overwritten with `bit`, as `rbsp_write_bit` does. -/
def setBit (buf : List Byte) (j bit : Nat) : List Byte :=
  match buf[j / 8]? with
  | none => buf
  | some b => buf.set (j / 8) (toByte ((b.val &&& (0xff ^^^ BIT (7 - j % 8))) ||| (bit <<< (7 - j % 8))))

/-- The bits `bits` stand in `buf` from bit position `p` on. -/
def BitsAt : List Byte → Nat → List Nat → Prop
  | _, _, [] => True
  | buf, p, b :: bs => bitAt buf p = some b ∧ BitsAt buf (p + 1) bs

/-- The buffer after the bits `bits` are written from bit position `p` on. -/
def writeBits : List Byte → Nat → List Nat → List Byte
  | buf, _, [] => buf
  | buf, p, b :: bs => writeBits (setBit buf p b) (p + 1) bs

/-- The `num` low bits of `value`, most significant first. -/
def bitsOf : Nat → Nat → List Nat
  | 0, _ => []
  | n + 1, v => ((v >>> n) &&& 1) :: bitsOf n v

/-- The number a list of bits stands for, first bit most significant. -/
def bitsVal : List Nat → Nat
  | [] => 0
  | b :: bs => (b <<< bs.length) ||| bitsVal bs

/-- The Exp-Golomb code of `v`: `fls (v + 1) - 1` zero bits, then `v + 1`. -/
def ueBits (v : Nat) : List Nat :=
  List.replicate (fls (v + 1) - 1) 0 ++ bitsOf (fls (v + 1) - 1 + 1) (v + 1)

/-- Writing a list of bits at the cursor, one `rbsp_write_bit` each. -/
def rbsp_put : Rbsp → List Nat → Option Rbsp
  | r, [] => some r
  | r, b :: bs =>
    match rbsp_write_bit r b with
    | none => none
    | some r1 => rbsp_put r1 bs

/-- The bits `coda_sps_fixup` writes from the saved position on:
frame_cropping_flag, the four crop offsets, the VUI flag and the stop bit. -/
def cropBits (cr cb vui : Nat) : List Nat :=
  [1] ++ (ueBits 0 ++ (ueBits cr ++ (ueBits 0 ++ (ueBits cb ++ ([vui] ++ [1])))))

/-- Length of the Exp-Golomb code of `v`: `2 * floor(log2 (v + 1)) + 1`. -/
def ue_len (v : Nat) : Nat := 2 * Nat.log2 (v + 1) + 1

/-- The bytes of a filler NAL unit of `size` bytes: 4-byte start code, header
`0x0c`, `size - 6` bytes `0xff`, final `0x80`. -/
def filler_nal_bytes (size : Nat) : List Byte :=
  [0x00, 0x00, 0x00, 0x01, 0x0c] ++ List.replicate (size - 6) 0xff ++ [0x80]

/-- The 32-bit window `val` of `coda_find_nal_header` after `n` bytes from
offset `start` on were shifted in. -/
def scanVal (mem : List Byte) (start : Nat) : Nat → Nat
  | 0 => 0xffffffff
  | n + 1 => ((scanVal mem start n <<< 8) % 4294967296) ||| (mem.getD (start + n) 0).val

/-- The four bytes before offset `p` are the start code `00 00 00 01`. -/
def StartCodeBefore (mem : List Byte) (p : Nat) : Prop :=
  4 ≤ p ∧ mem[p - 4]? = some 0x00 ∧ mem[p - 3]? = some 0x00 ∧ mem[p - 2]? = some 0x00 ∧
    mem[p - 1]? = some 0x01

instance (mem : List Byte) (p : Nat) : Decidable (StartCodeBefore mem p) := by
  unfold StartCodeBefore; infer_instance

/-- The `profile_idc` values `coda_h264_profile` knows. -/
def known_profiles : List Int := [66, 77, 88, 100]

/-- The `level_idc` values `coda_h264_level` knows. -/
def known_levels : List Int := [9, 10, 11, 12, 13, 20, 21, 22, 30, 31, 32, 40, 41]

/-- Modelled from the spec: `write_se`, which the source does not have:
"`v≥0` maps to `tmp=2v`, negative `v<0` maps to `tmp=2·|v|-1`, then
`write_ue(tmp)`". -/
def rbsp_write_sev (rbsp : Rbsp) (value : Int) : Option Rbsp :=
  rbsp_write_uev rbsp (if 0 ≤ value then 2 * value.toNat else 2 * value.natAbs - 1)

/-- The code number that `rbsp_read_sev` decodes to `v`: `2v - 1` for
`v > 0` and `2|v|` for `v ≤ 0`. -/
def se_code (v : Int) : Nat := if 0 < v then 2 * v.toNat - 1 else 2 * v.natAbs

/-- The bits of `buf` at positions `p, p + 1, ..., p + n - 1`. -/
def bitsFrom (buf : List Byte) (p : Nat) : Nat → List Nat
  | 0 => []
  | n + 1 => (bitAt buf p).getD 0 :: bitsFrom buf (p + 1) n

/-- Scanning from offset `s`: the first start code `00 00 00 01` that lies
at or after `s` ends right before `p`, and `p` is before `end_`. -/
def FirstStartCode (mem : List Byte) (s end_ p : Nat) : Prop :=
  s + 4 ≤ p ∧ p < end_ ∧ StartCodeBefore mem p ∧
    ∀ q, s + 4 ≤ q → q < p → ¬ StartCodeBefore mem q

instance (mem : List Byte) (s end_ p : Nat) : Decidable (FirstStartCode mem s end_ p) := by
  unfold FirstStartCode; infer_instance

/-- The successive scans of `coda_sps_parse_profile` from offset `s` reach a
NAL header byte of type 7 at offset `p`: every scan starts after the header
byte the previous one found, and the header bytes found before have another
type. -/
inductive SpsHeaderAt (mem : List Byte) (end_ : Nat) : Nat → Nat → Prop
  | found {s p : Nat} {b : Byte} : FirstStartCode mem s end_ p → mem[p]? = some b →
      b.val &&& 0x1f = 0x7 → SpsHeaderAt mem end_ s p
  | skip {s q p : Nat} {b : Byte} : FirstStartCode mem s end_ q → mem[q]? = some b →
      b.val &&& 0x1f ≠ 0x7 → SpsHeaderAt mem end_ (q + 1) p → SpsHeaderAt mem end_ s p

/-- The buffer `buf1` has the length of `buf` and the same bits below bit
position `q`. -/
def AgreeBelow (buf buf1 : List Byte) (q : Nat) : Prop :=
  buf1.length = buf.length ∧ ∀ j, j < q → bitAt buf1 j = bitAt buf j

/-- A read leaves the buffer alone, moves the cursor forward, and gives the
same result on every buffer that agrees below the position it stops at. -/
def ReadsLocally {α : Type} (R : Rbsp → Option (α × Rbsp)) : Prop :=
  ∀ r a r1, R r = some (a, r1) →
    r1.buf = r.buf ∧ r.pos ≤ r1.pos ∧
    ∀ buf1, AgreeBelow r.buf buf1 r1.pos →
      R { buf := buf1, pos := r.pos } = some (a, { buf := buf1, pos := r1.pos })

/-- The same as `ReadsLocally`, for a step that returns only the cursor. -/
def SkipsLocally (F : Rbsp → Option Rbsp) : Prop :=
  ∀ r r1, F r = some r1 →
    r1.buf = r.buf ∧ r.pos ≤ r1.pos ∧
    ∀ buf1, AgreeBelow r.buf buf1 r1.pos →
      F { buf := buf1, pos := r.pos } = some { buf := buf1, pos := r1.pos }

/-! ## Sample buffers -/

/-- A Baseline SPS NAL unit for a 112x112 picture, no cropping, no VUI, with
room for the rewritten cropping fields. -/
def sample_sps : List Byte :=
  [0x00, 0x00, 0x00, 0x01, 0x67, 0x42, 0x00, 0x1e, 0xf4, 0x39, 0xf2, 0x00, 0x00]

/-- What `coda_sps_fixup_header` reads from `sample_sps`. -/
def sample_header : SpsHeader :=
  { profile_idc := 66, level_idc := 30, seq_parameter_set_id := 0,
    sps := { buf := [0x42, 0x00, 0x1e, 0xf4, 0x39, 0xf2, 0x00, 0x00], pos := 25 } }

/-- What `coda_sps_fixup_fields` reads from `sample_sps`. -/
def sample_fields : SpsFields :=
  { pic_order_cnt_type := 0, max_num_ref_frames := 1,
    gaps_in_frame_num_value_allowed_flag := 0, pic_width_in_mbs_minus1 := 6,
    pic_height_in_map_units_minus1 := 6, frame_mbs_only_flag := 1,
    direct_8x8_inference_flag := 1, pos := 44, frame_cropping_flag := 0,
    vui_parameters_present_flag := 0,
    sps := { buf := [0x42, 0x00, 0x1e, 0xf4, 0x39, 0xf2, 0x00, 0x00], pos := 46 } }

/-- An SPS NAL unit of the High profile (profile_idc = 100). -/
def sample_high : List Byte := [0x00, 0x00, 0x00, 0x01, 0x67, 0x64, 0x00, 0x1e, 0x80]

/-- The Baseline SPS NAL unit `sample_sps` with vui_parameters_present_flag set. -/
def sample_vui : List Byte :=
  [0x00, 0x00, 0x00, 0x01, 0x67, 0x42, 0x00, 0x1e, 0xf4, 0x39, 0xf6, 0x00, 0x00]

/-- What `coda_sps_fixup_header` reads from `sample_vui`. -/
def sample_vui_header : SpsHeader :=
  { profile_idc := 66, level_idc := 30, seq_parameter_set_id := 0,
    sps := { buf := [0x42, 0x00, 0x1e, 0xf4, 0x39, 0xf6, 0x00, 0x00], pos := 25 } }

/-- What `coda_sps_fixup_fields` reads from `sample_vui`. -/
def sample_vui_fields : SpsFields :=
  { pic_order_cnt_type := 0, max_num_ref_frames := 1,
    gaps_in_frame_num_value_allowed_flag := 0, pic_width_in_mbs_minus1 := 6,
    pic_height_in_map_units_minus1 := 6, frame_mbs_only_flag := 1,
    direct_8x8_inference_flag := 1, pos := 44, frame_cropping_flag := 0,
    vui_parameters_present_flag := 1,
    sps := { buf := [0x42, 0x00, 0x1e, 0xf4, 0x39, 0xf6, 0x00, 0x00], pos := 46 } }

/-- The rewritten `sample_sps`: the buffer `coda_sps_fixup 100 100` returns. -/
def sample_sps_fixed : List Byte :=
  [0x00, 0x00, 0x00, 0x01, 0x67, 0x42, 0x00, 0x1e, 0xf4, 0x39, 0xfc, 0xf3, 0xa0]

/-- Two NAL units, an access unit delimiter and a Baseline SPS, with three
bytes after the payload of 14 bytes. -/
def sample_stream : List Byte :=
  [0x00, 0x00, 0x00, 0x01, 0x09, 0x10, 0x00, 0x00, 0x00, 0x01, 0x67, 0x42, 0x00, 0x1e,
   0x00, 0x00, 0x00]

/-- A start code that ends right at the end of a 4-byte payload. -/
def sample_code_at_end : List Byte := [0x00, 0x00, 0x00, 0x01, 0x09]

/-! ## Bits of a byte and of a buffer -/

theorem shr_and_one (x t : Nat) : (x >>> t) &&& 1 = (x.testBit t).toNat := by
  rw [Nat.and_one_is_mod, Nat.shiftRight_eq_div_pow, Nat.toNat_testBit]

theorem byte_set_bit (b s t bit : Nat) (hs : s ≤ 7) (ht : t ≤ 7) (hb : bit ≤ 1) :
    ((((b &&& (0xff ^^^ BIT s)) ||| (bit <<< s)) % 256) >>> t) &&& 1
      = if t = s then bit else (b >>> t) &&& 1 := by
  have h256 : (256 : Nat) = 2 ^ 8 := by norm_num
  have h255 : (0xff : Nat) = 2 ^ 8 - 1 := by norm_num
  rw [shr_and_one, shr_and_one, h256, h255, BIT, Nat.one_shiftLeft]
  rw [Nat.testBit_mod_two_pow, Nat.testBit_lor, Nat.testBit_land, Nat.testBit_xor,
    Nat.testBit_two_pow_sub_one, Nat.testBit_two_pow, Nat.testBit_shiftLeft]
  have ht8 : t < 8 := by omega
  by_cases hts : t = s
  · subst hts
    simp [ht8]
    interval_cases bit <;> simp
  · have hst : ¬ s = t := fun h => hts h.symm
    simp [ht8, hts, hst]
    interval_cases bit
    · simp
    · by_cases hle : s ≤ t
      · have h1 : Nat.testBit 1 (t - s) = false := by
          rw [Bool.eq_false_iff]
          intro h
          rw [Nat.testBit_one_eq_true_iff_self_eq_zero] at h
          omega
        simp [h1]
      · simp [hle]

theorem toByte_val (x : Nat) : (toByte x).val = x % 256 := rfl

theorem setBit_length (buf : List Byte) (j bit : Nat) : (setBit buf j bit).length = buf.length := by
  unfold setBit
  split <;> simp

theorem bitAt_eq_none_iff (buf : List Byte) (j : Nat) : bitAt buf j = none ↔ 8 * buf.length ≤ j := by
  unfold bitAt
  simp [List.getElem?_eq_none_iff]
  omega

theorem bitAt_isSome_iff (buf : List Byte) (j : Nat) : (bitAt buf j).isSome ↔ j < 8 * buf.length := by
  rw [← not_iff_not]
  simp [bitAt_eq_none_iff]

theorem bitAt_le_one (buf : List Byte) (j b : Nat) (h : bitAt buf j = some b) : b ≤ 1 := by
  unfold bitAt at h
  simp at h
  obtain ⟨a, _, rfl⟩ := h
  exact Nat.le_of_lt_succ (Nat.mod_lt _ (by norm_num))

theorem bitAt_setBit_same (buf : List Byte) (j bit : Nat) (hj : j < 8 * buf.length) (hb : bit ≤ 1) :
    bitAt (setBit buf j bit) j = some bit := by
  have hlt : j / 8 < buf.length := by omega
  unfold setBit bitAt
  rw [List.getElem?_eq_getElem hlt]
  simp only [List.getElem?_set_self hlt, Option.map_some', toByte_val]
  rw [byte_set_bit _ _ _ _ (by omega) (by omega) hb]
  simp

theorem bitAt_setBit_other (buf : List Byte) (j i bit : Nat) (hb : bit ≤ 1) (hij : i ≠ j) :
    bitAt (setBit buf j bit) i = bitAt buf i := by
  unfold setBit
  split
  · rfl
  · rename_i b hb1
    unfold bitAt
    by_cases hq : i / 8 = j / 8
    · have hlt : j / 8 < buf.length := by
        by_contra hc
        rw [List.getElem?_eq_none (by omega)] at hb1
        cases hb1
      rw [hq, List.getElem?_set_self hlt, hb1]
      simp only [Option.map_some', toByte_val]
      rw [byte_set_bit _ _ _ _ (by omega) (by omega) hb]
      have : 7 - i % 8 ≠ 7 - j % 8 := by omega
      simp [this]
    · rw [List.getElem?_set_ne (fun h => hq h.symm)]

theorem rbsp_read_bit_eq (r : Rbsp) :
    rbsp_read_bit r = (bitAt r.buf r.pos).map (fun b => (b, { r with pos := r.pos + 1 })) := by
  unfold rbsp_read_bit bitAt
  dsimp only
  cases r.buf[r.pos / 8]? <;> rfl

theorem rbsp_write_bit_eq (r : Rbsp) (bit : Nat) :
    rbsp_write_bit r bit =
      if r.pos < 8 * r.buf.length then some { buf := setBit r.buf r.pos bit, pos := r.pos + 1 }
      else none := by
  unfold rbsp_write_bit setBit
  dsimp only
  split_ifs with h
  · have hlt : r.pos / 8 < r.buf.length := by omega
    rw [List.getElem?_eq_getElem hlt]
  · rw [List.getElem?_eq_none (by omega)]

theorem BitsAt_iff (buf : List Byte) (p : Nat) (bits : List Nat) :
    BitsAt buf p bits ↔ ∀ i, i < bits.length → bitAt buf (p + i) = bits[i]? := by
  induction bits generalizing p with
  | nil => simp [BitsAt]
  | cons b bs ih =>
    simp only [BitsAt, ih, List.length_cons]
    constructor
    · rintro ⟨h0, h1⟩ i hi
      cases i with
      | zero => simpa using h0
      | succ k =>
        have := h1 k (by omega)
        simp only [List.getElem?_cons_succ]
        rw [← this]
        congr 1
        omega
    · intro h
      refine ⟨by simpa using h 0 (by omega), fun i hi => ?_⟩
      have := h (i + 1) (by omega)
      simp only [List.getElem?_cons_succ] at this
      rw [← this]
      congr 1
      omega

theorem BitsAt_append (buf : List Byte) (p : Nat) (xs ys : List Nat) :
    BitsAt buf p (xs ++ ys) ↔ BitsAt buf p xs ∧ BitsAt buf (p + xs.length) ys := by
  induction xs generalizing p with
  | nil => simp [BitsAt]
  | cons b bs ih =>
    have e : p + 1 + bs.length = p + (bs.length + 1) := by omega
    show (bitAt buf p = some b ∧ BitsAt buf (p + 1) (bs ++ ys)) ↔
      (bitAt buf p = some b ∧ BitsAt buf (p + 1) bs) ∧ BitsAt buf (p + (bs.length + 1)) ys
    rw [ih, e, and_assoc]

theorem BitsAt_congr (buf buf1 : List Byte) (p : Nat) (bits : List Nat)
    (h : ∀ i, p ≤ i → i < p + bits.length → bitAt buf1 i = bitAt buf i)
    (hb : BitsAt buf p bits) : BitsAt buf1 p bits := by
  rw [BitsAt_iff] at hb ⊢
  intro i hi
  rw [h (p + i) (by omega) (by omega)]
  exact hb i hi

theorem BitsAt_bound (buf : List Byte) (p : Nat) (bits : List Nat) (hb : BitsAt buf p bits) :
    bits = [] ∨ p + bits.length ≤ 8 * buf.length := by
  rcases List.eq_nil_or_concat bits with h | ⟨xs, x, rfl⟩
  · exact Or.inl h
  · right
    rw [List.concat_eq_append, BitsAt_append] at hb
    have h1 := hb.2.1
    have : (bitAt buf (p + xs.length)).isSome := by rw [h1]; rfl
    rw [bitAt_isSome_iff] at this
    simp
    omega

theorem writeBits_length (buf : List Byte) (p : Nat) (bits : List Nat) :
    (writeBits buf p bits).length = buf.length := by
  induction bits generalizing buf p with
  | nil => rfl
  | cons b bs ih => simp [writeBits, ih, setBit_length]

theorem writeBits_append (buf : List Byte) (p : Nat) (xs ys : List Nat) :
    writeBits buf p (xs ++ ys) = writeBits (writeBits buf p xs) (p + xs.length) ys := by
  induction xs generalizing buf p with
  | nil => rfl
  | cons b bs ih =>
    have e : p + 1 + bs.length = p + (bs.length + 1) := by omega
    show writeBits (setBit buf p b) (p + 1) (bs ++ ys) =
      writeBits (writeBits (setBit buf p b) (p + 1) bs) (p + (bs.length + 1)) ys
    rw [ih, e]

theorem bitAt_writeBits_outside (buf : List Byte) (p : Nat) (bits : List Nat) (i : Nat)
    (hb : ∀ b ∈ bits, b ≤ 1) (hi : i < p ∨ p + bits.length ≤ i) :
    bitAt (writeBits buf p bits) i = bitAt buf i := by
  induction bits generalizing buf p with
  | nil => rfl
  | cons b bs ih =>
    simp only [writeBits]
    simp only [List.length_cons] at hi
    rw [ih _ _ (fun x hx => hb x (List.mem_cons_of_mem _ hx)) (by omega)]
    exact bitAt_setBit_other _ _ _ _ (hb b (List.mem_cons_self _ _)) (by omega)

theorem BitsAt_writeBits (buf : List Byte) (p : Nat) (bits : List Nat)
    (hb : ∀ b ∈ bits, b ≤ 1) (hlen : p + bits.length ≤ 8 * buf.length) :
    BitsAt (writeBits buf p bits) p bits := by
  induction bits generalizing buf p with
  | nil => trivial
  | cons b bs ih =>
    simp only [List.length_cons] at hlen
    have hb1 : ∀ x ∈ bs, x ≤ 1 := fun x hx => hb x (List.mem_cons_of_mem _ hx)
    refine ⟨?_, ?_⟩
    · simp only [writeBits]
      rw [bitAt_writeBits_outside _ _ _ _ hb1 (by omega)]
      exact bitAt_setBit_same _ _ _ (by omega) (hb b (List.mem_cons_self _ _))
    · exact ih _ _ hb1 (by rw [setBit_length]; omega)

/-! ## Writing bit lists -/

theorem rbsp_put_nil (r : Rbsp) : rbsp_put r [] = some r := rfl

theorem rbsp_put_cons (r : Rbsp) (b : Nat) (bs : List Nat) :
    rbsp_put r (b :: bs) =
      match rbsp_write_bit r b with
      | none => none
      | some r1 => rbsp_put r1 bs := rfl

theorem rbsp_put_eq (r : Rbsp) (bits : List Nat) :
    rbsp_put r bits =
      if bits = [] ∨ r.pos + bits.length ≤ 8 * r.buf.length then
        some { buf := writeBits r.buf r.pos bits, pos := r.pos + bits.length }
      else none := by
  induction bits generalizing r with
  | nil => simp [rbsp_put, writeBits]
  | cons b bs ih =>
    rw [rbsp_put_cons, rbsp_write_bit_eq]
    by_cases h : r.pos < 8 * r.buf.length
    · simp only [h, if_true, ih, setBit_length, List.length_cons, writeBits]
      have e : r.pos + (bs.length + 1) = r.pos + 1 + bs.length := by omega
      rw [e]
      by_cases h2 : r.pos + 1 + bs.length ≤ 8 * r.buf.length
      · simp [h2]
      · have h3 : bs ≠ [] := by
          intro hn; subst hn; simp at h2; omega
        simp [h2, h3]
    · have h2 : ¬ (r.pos + (bs.length + 1) ≤ 8 * r.buf.length) := by omega
      simp [h, h2]

theorem rbsp_put_some (r : Rbsp) (bits : List Nat)
    (h : r.pos + bits.length ≤ 8 * r.buf.length) :
    rbsp_put r bits =
      some { buf := writeBits r.buf r.pos bits, pos := r.pos + bits.length } := by
  rw [rbsp_put_eq, if_pos (Or.inr h)]

theorem rbsp_put_append (r : Rbsp) (xs ys : List Nat) :
    rbsp_put r (xs ++ ys) = (rbsp_put r xs).bind (fun r1 => rbsp_put r1 ys) := by
  induction xs generalizing r with
  | nil => simp [rbsp_put_nil]
  | cons b bs ih =>
    rw [List.cons_append, rbsp_put_cons, rbsp_put_cons]
    cases rbsp_write_bit r b with
    | none => rfl
    | some r1 => exact ih r1

theorem rbsp_put_single (r : Rbsp) (b : Nat) : rbsp_put r [b] = rbsp_write_bit r b := by
  rw [rbsp_put_cons]
  cases rbsp_write_bit r b <;> rfl

theorem rbsp_write_bits_eq (r : Rbsp) (num value : Nat) :
    rbsp_write_bits r num value = rbsp_put r (bitsOf num value) := by
  induction num generalizing r with
  | zero => simp [rbsp_write_bits, bitsOf, rbsp_put_nil]
  | succ n ih =>
    rw [bitsOf, rbsp_put_cons, rbsp_write_bits]
    cases rbsp_write_bit r ((value >>> n) &&& 1) with
    | none => rfl
    | some r1 => exact ih r1

theorem rbsp_write_uev_loop_eq (r : Rbsp) (n : Nat) :
    rbsp_write_uev_loop r n = rbsp_put r (List.replicate n 0) := by
  induction n generalizing r with
  | zero => simp [rbsp_write_uev_loop, rbsp_put_nil]
  | succ n ih =>
    rw [List.replicate_succ, rbsp_put_cons, rbsp_write_uev_loop]
    cases rbsp_write_bit r 0 with
    | none => rfl
    | some r1 => exact ih r1

theorem rbsp_write_uev_eq (r : Rbsp) (v : Nat) (hv : v < INT_MAX) :
    rbsp_write_uev r v = rbsp_put r (ueBits v) := by
  unfold rbsp_write_uev ueBits
  rw [if_neg (by omega), rbsp_put_append]
  simp only [rbsp_write_uev_loop_eq, rbsp_write_bits_eq]
  cases rbsp_put r (List.replicate (fls (v + 1) - 1) 0) <;> rfl

theorem bitsOf_length (n v : Nat) : (bitsOf n v).length = n := by
  induction n with
  | zero => rfl
  | succ n ih => simp [bitsOf, ih]

theorem bitsOf_le_one (n v : Nat) : ∀ b ∈ bitsOf n v, b ≤ 1 := by
  induction n with
  | zero => simp [bitsOf]
  | succ n ih =>
    intro b hb
    simp only [bitsOf, List.mem_cons] at hb
    rcases hb with rfl | hb
    · rw [Nat.and_one_is_mod]; omega
    · exact ih b hb

theorem flsAux_spec (fuel x : Nat) (hx : x < 2 ^ fuel) (h0 : x ≠ 0) :
    2 ^ (flsAux fuel x - 1) ≤ x ∧ x < 2 ^ (flsAux fuel x - 1 + 1) := by
  induction fuel generalizing x with
  | zero => simp at hx; omega
  | succ f ih =>
    rw [flsAux, if_neg h0]
    by_cases h1 : x / 2 = 0
    · have hx1 : x = 1 := by omega
      subst hx1
      cases f <;> simp [flsAux]
    · have hlt : x / 2 < 2 ^ f := by
        rw [pow_succ] at hx; omega
      obtain ⟨ha, hb⟩ := ih (x / 2) hlt h1
      have hpos : 1 ≤ flsAux f (x / 2) := by
        cases f with
        | zero => simp at hlt; omega
        | succ g => rw [flsAux, if_neg h1]; omega
      have e : flsAux f (x / 2) + 1 - 1 = flsAux f (x / 2) - 1 + 1 := by omega
      rw [e, pow_succ]
      rw [pow_succ] at hb
      omega

theorem fls_spec (x : Nat) (hx : x < 2 ^ 32) (h0 : x ≠ 0) :
    2 ^ (fls x - 1) ≤ x ∧ x < 2 ^ (fls x - 1 + 1) := flsAux_spec 32 x hx h0

theorem fls_eq_log2 (x : Nat) (hx : x < 2 ^ 32) (h0 : x ≠ 0) : fls x - 1 = Nat.log2 x := by
  obtain ⟨ha, hb⟩ := fls_spec x hx h0
  have h1 : fls x - 1 ≤ Nat.log2 x := (Nat.le_log2 h0).2 ha
  have h2 : Nat.log2 x < fls x - 1 + 1 := (Nat.log2_lt h0).2 hb
  omega

theorem ueBits_length (v : Nat) : (ueBits v).length = 2 * (fls (v + 1) - 1) + 1 := by
  simp [ueBits, bitsOf_length]
  omega

theorem ueBits_le_one (v : Nat) : ∀ b ∈ ueBits v, b ≤ 1 := by
  intro b hb
  simp only [ueBits, List.mem_append, List.mem_replicate] at hb
  rcases hb with ⟨_, rfl⟩ | hb
  · omega
  · exact bitsOf_le_one _ _ b hb

/-! ## Reading bit lists back -/

theorem bitsVal_bitsOf (n v : Nat) : bitsVal (bitsOf n v) = v % 2 ^ n := by
  induction n with
  | zero => simp [bitsOf, bitsVal, Nat.mod_one]
  | succ n ih =>
    rw [bitsOf, bitsVal, ih, bitsOf_length, Nat.and_one_is_mod, Nat.shiftRight_eq_div_pow,
      Nat.shiftLeft_eq, Nat.mul_comm, ← Nat.mul_add_lt_is_or (Nat.mod_lt _ (by positivity)),
      Nat.mod_pow_succ]
    omega

theorem rbsp_read_bit_of_BitsAt (r : Rbsp) (b : Nat) (bs : List Nat)
    (h : BitsAt r.buf r.pos (b :: bs)) :
    rbsp_read_bit r = some (b, { r with pos := r.pos + 1 }) := by
  rw [rbsp_read_bit_eq, h.1]
  rfl

theorem rbsp_read_bits_loop_of_BitsAt (r : Rbsp) (bs : List Nat) (ret : Nat)
    (h : BitsAt r.buf r.pos bs) :
    rbsp_read_bits_loop bs.length ret r =
      some (ret ||| bitsVal bs, { r with pos := r.pos + bs.length }) := by
  induction bs generalizing r ret with
  | nil => simp [rbsp_read_bits_loop, bitsVal]
  | cons b bs ih =>
    rw [List.length_cons, rbsp_read_bits_loop, rbsp_read_bit_of_BitsAt r b bs h]
    simp only
    rw [ih { r with pos := r.pos + 1 } _ h.2, bitsVal, Nat.lor_assoc]
    have e : r.pos + 1 + bs.length = r.pos + (bs.length + 1) := by omega
    simp only [e]

theorem rbsp_read_bits_of_BitsAt (r : Rbsp) (n v : Nat) (hn : n ≤ 31)
    (h : BitsAt r.buf r.pos (bitsOf n v)) :
    rbsp_read_bits r n = some (v % 2 ^ n, { r with pos := r.pos + n }) := by
  unfold rbsp_read_bits
  rw [if_neg (by omega)]
  have := rbsp_read_bits_loop_of_BitsAt r (bitsOf n v) 0 h
  rw [bitsOf_length, bitsVal_bitsOf, Nat.zero_or] at this
  exact this

theorem rbsp_read_uev_loop_of_BitsAt (r : Rbsp) (k fuel lzb : Nat) (rest : List Nat)
    (hf : k < fuel) (h : BitsAt r.buf r.pos (List.replicate k 0 ++ 1 :: rest)) :
    rbsp_read_uev_loop fuel lzb r = some (lzb + k, { r with pos := r.pos + k + 1 }) := by
  induction k generalizing r fuel lzb with
  | zero =>
    obtain ⟨f, rfl⟩ : ∃ f, fuel = f + 1 := ⟨fuel - 1, by omega⟩
    rw [rbsp_read_uev_loop, rbsp_read_bit_of_BitsAt r 1 rest h]
    simp
  | succ k ih =>
    obtain ⟨f, rfl⟩ : ∃ f, fuel = f + 1 := ⟨fuel - 1, by omega⟩
    rw [List.replicate_succ, List.cons_append] at h
    rw [rbsp_read_uev_loop, rbsp_read_bit_of_BitsAt r 0 _ h]
    simp only [if_true]
    rw [ih { r with pos := r.pos + 1 } f (lzb + 1) (by omega) h.2]
    have e1 : lzb + 1 + k = lzb + (k + 1) := by omega
    have e2 : r.pos + 1 + k + 1 = r.pos + (k + 1) + 1 := by omega
    simp only [e1, e2]

theorem ueBits_eq (v : Nat) (hv : v < INT_MAX) :
    ueBits v = List.replicate (fls (v + 1) - 1) 0 ++ 1 :: bitsOf (fls (v + 1) - 1) (v + 1) := by
  have hv32 : v + 1 < 2 ^ 32 := by unfold INT_MAX at hv; omega
  obtain ⟨ha, hb⟩ := fls_spec (v + 1) hv32 (by omega)
  unfold ueBits
  rw [bitsOf, Nat.and_one_is_mod, Nat.shiftRight_eq_div_pow]
  have : (v + 1) / 2 ^ (fls (v + 1) - 1) = 1 := by
    apply Nat.div_eq_of_lt_le
    · simpa using ha
    · rw [pow_succ] at hb; omega
  rw [this]

theorem fls_le_31 (v : Nat) (hv : v < INT_MAX) : fls (v + 1) - 1 < 31 := by
  have hv32 : v + 1 < 2 ^ 32 := by unfold INT_MAX at hv; omega
  obtain ⟨ha, _⟩ := fls_spec (v + 1) hv32 (by omega)
  by_contra hc
  have : 2 ^ 31 ≤ 2 ^ (fls (v + 1) - 1) := Nat.pow_le_pow_right (by norm_num) (by omega)
  unfold INT_MAX at hv
  omega

theorem rbsp_read_uev_of_BitsAt (r : Rbsp) (v : Nat) (hv : v < INT_MAX)
    (h : BitsAt r.buf r.pos (ueBits v)) :
    rbsp_read_uev r = some (v, { r with pos := r.pos + (ueBits v).length }) := by
  have hv32 : v + 1 < 2 ^ 32 := by unfold INT_MAX at hv; omega
  obtain ⟨ha, hb⟩ := fls_spec (v + 1) hv32 (by omega)
  have hk := fls_le_31 v hv
  have hbound := BitsAt_bound _ _ _ h
  have hlen := ueBits_length v
  rw [ueBits_eq v hv] at h
  generalize fls (v + 1) - 1 = k at *
  have hfuel : k < 8 * r.buf.length + 1 := by
    rcases hbound with hnil | hle
    · rw [hnil] at hlen; simp at hlen
    · omega
  unfold rbsp_read_uev
  rw [rbsp_read_uev_loop_of_BitsAt r k _ 0 _ hfuel h]
  simp only [Nat.zero_add]
  rw [if_neg (by omega)]
  have h2 : BitsAt r.buf (r.pos + k + 1) (bitsOf k (v + 1)) := by
    rw [BitsAt_append] at h
    have := h.2.2
    simpa [Nat.add_assoc] using this
  by_cases hk0 : 0 < k
  · rw [if_pos hk0]
    rw [rbsp_read_bits_of_BitsAt { r with pos := r.pos + k + 1 } k (v + 1) (by omega) h2]
    simp only [Nat.one_shiftLeft, hlen]
    have e1 : (v + 1) % 2 ^ k = v + 1 - 2 ^ k := by
      rw [pow_succ] at hb
      rw [Nat.mod_eq_sub_mod ha, Nat.mod_eq_of_lt (by omega)]
    have e2 : 2 ^ k - 1 + (v + 1 - 2 ^ k) = v := by
      have : 0 < 2 ^ k := by positivity
      omega
    have e3 : r.pos + k + 1 + k = r.pos + (2 * k + 1) := by omega
    rw [e1, e2, e3]
  · have hk0 : k = 0 := by omega
    subst hk0
    rw [if_neg (by omega)]
    simp only [hlen]
    have : v = 0 := by simp at hb; omega
    subst this
    simp

theorem bitsOf_getElem_opt (n v i : Nat) (hi : i < n) :
    (bitsOf n v)[i]? = some ((v >>> (n - 1 - i)) &&& 1) := by
  induction n generalizing i with
  | zero => omega
  | succ n ih =>
    rw [bitsOf]
    cases i with
    | zero => simp
    | succ j =>
      rw [List.getElem?_cons_succ, ih j (by omega)]
      have e : n + 1 - 1 - (j + 1) = n - 1 - j := by omega
      rw [e]

/-! ## Exp-Golomb round trip and layout -/

theorem log2_lt_of_lt_two_pow_20 (v : Nat) (hv : v < 2 ^ 20) :
    v < INT_MAX ∧ fls (v + 1) - 1 = Nat.log2 (v + 1) := by
  have h1 : v < INT_MAX := by unfold INT_MAX; omega
  exact ⟨h1, fls_eq_log2 (v + 1) (by omega) (by omega)⟩

theorem rbsp_write_uev_some (r : Rbsp) (v : Nat) (hv : v < INT_MAX)
    (hfit : r.pos + (2 * (fls (v + 1) - 1) + 1) ≤ 8 * r.buf.length) :
    rbsp_write_uev r v =
      some { buf := writeBits r.buf r.pos (ueBits v),
             pos := r.pos + (2 * (fls (v + 1) - 1) + 1) } := by
  rw [rbsp_write_uev_eq r v hv, rbsp_put_some r _ (by rw [ueBits_length]; exact hfit),
    ueBits_length]

/-- C6: for `0 ≤ v < 2^20` and a cursor with room for the
`2 * floor(log2 (v + 1)) + 1` bits of the code, `rbsp_write_uev` of `v`
followed by `rbsp_read_uev` from the same position returns `v` and leaves the
cursor where the write ended. -/
theorem uev_write_then_read (v : Nat) (r : Rbsp) (hv : v < 2 ^ 20)
    (hfit : r.pos + 2 * Nat.log2 (v + 1) + 1 ≤ 8 * r.buf.length) :
    ∃ r1, rbsp_write_uev r v = some r1 ∧
      rbsp_read_uev { r1 with pos := r.pos } = some (v, r1) := by
  obtain ⟨hmax, hk⟩ := log2_lt_of_lt_two_pow_20 v hv
  have hfit1 : r.pos + (2 * (fls (v + 1) - 1) + 1) ≤ 8 * r.buf.length := by
    rw [hk]; omega
  refine ⟨_, rbsp_write_uev_some r v hmax hfit1, ?_⟩
  have hb : BitsAt (writeBits r.buf r.pos (ueBits v)) r.pos (ueBits v) :=
    BitsAt_writeBits _ _ _ (ueBits_le_one v) (by rw [ueBits_length]; exact hfit1)
  have := rbsp_read_uev_of_BitsAt
    { buf := writeBits r.buf r.pos (ueBits v), pos := r.pos } v hmax hb
  rw [ueBits_length] at this
  exact this

theorem uev_write_then_read_witness :
    ∃ r1, rbsp_write_uev { buf := [0xff, 0xff], pos := 3 } 6 = some r1 ∧
      rbsp_read_uev { r1 with pos := 3 } = some (6, r1) :=
  uev_write_then_read 6 { buf := [0xff, 0xff], pos := 3 } (by norm_num) (by simp [Nat.log2])

/-- C7: for `0 ≤ v < 2^20` and a cursor with room for the code,
`rbsp_write_uev` of `v` advances the cursor by `2 * k + 1` bits with
`k = floor(log2 (v + 1))`, leaves `k` zero bits followed by the `k + 1` bits
of `v + 1`, most significant first, and changes no bit outside that range. -/
theorem uev_write_layout (v : Nat) (r : Rbsp) (hv : v < 2 ^ 20)
    (hfit : r.pos + 2 * Nat.log2 (v + 1) + 1 ≤ 8 * r.buf.length) :
    ∃ r1, rbsp_write_uev r v = some r1 ∧
      r1.pos = r.pos + (2 * Nat.log2 (v + 1) + 1) ∧
      r1.buf.length = r.buf.length ∧
      (∀ i, i < Nat.log2 (v + 1) → bitAt r1.buf (r.pos + i) = some 0) ∧
      (∀ i, i ≤ Nat.log2 (v + 1) →
        bitAt r1.buf (r.pos + Nat.log2 (v + 1) + i)
          = some (((v + 1) >>> (Nat.log2 (v + 1) - i)) &&& 1)) ∧
      (∀ j, j < r.pos ∨ r.pos + (2 * Nat.log2 (v + 1) + 1) ≤ j →
        bitAt r1.buf j = bitAt r.buf j) := by
  obtain ⟨hmax, hk⟩ := log2_lt_of_lt_two_pow_20 v hv
  have hfit1 : r.pos + (2 * (fls (v + 1) - 1) + 1) ≤ 8 * r.buf.length := by
    rw [hk]; omega
  have hb : BitsAt (writeBits r.buf r.pos (ueBits v)) r.pos (ueBits v) :=
    BitsAt_writeBits _ _ _ (ueBits_le_one v) (by rw [ueBits_length]; exact hfit1)
  rw [BitsAt_iff] at hb
  refine ⟨_, rbsp_write_uev_some r v hmax hfit1, ?_, ?_, ?_, ?_, ?_⟩
  · simp only [hk]
  · exact writeBits_length _ _ _
  · intro i hi
    show bitAt (writeBits r.buf r.pos (ueBits v)) (r.pos + i) = some 0
    rw [hb i (by rw [ueBits_length, hk]; omega)]
    unfold ueBits
    rw [List.getElem?_append_left (by simpa [hk] using hi)]
    simp [hk, hi]
  · intro i hi
    show bitAt (writeBits r.buf r.pos (ueBits v)) (r.pos + Nat.log2 (v + 1) + i) = _
    rw [Nat.add_assoc, hb _ (by rw [ueBits_length, hk]; omega)]
    unfold ueBits
    rw [List.getElem?_append_right (by simp [hk]), List.length_replicate, hk,
      Nat.add_sub_cancel_left, bitsOf_getElem_opt _ _ _ (by omega), Nat.add_sub_cancel]
  · intro j hj
    show bitAt (writeBits r.buf r.pos (ueBits v)) j = bitAt r.buf j
    apply bitAt_writeBits_outside _ _ _ _ (ueBits_le_one v)
    rw [ueBits_length, hk]
    exact hj

theorem uev_write_layout_witness :
    ∃ r1, rbsp_write_uev { buf := [0xff, 0xff], pos := 3 } 6 = some r1 ∧
      r1.pos = 3 + (2 * Nat.log2 (6 + 1) + 1) ∧
      r1.buf.length = 2 ∧
      (∀ i, i < Nat.log2 (6 + 1) → bitAt r1.buf (3 + i) = some 0) ∧
      (∀ i, i ≤ Nat.log2 (6 + 1) →
        bitAt r1.buf (3 + Nat.log2 (6 + 1) + i)
          = some (((6 + 1) >>> (Nat.log2 (6 + 1) - i)) &&& 1)) ∧
      (∀ j, j < 3 ∨ 3 + (2 * Nat.log2 (6 + 1) + 1) ≤ j →
        bitAt r1.buf j = bitAt [0xff, 0xff] j) :=
  uev_write_layout 6 { buf := [0xff, 0xff], pos := 3 } (by norm_num) (by simp [Nat.log2])

/-! ## Reads leave the buffer untouched -/

theorem rbsp_read_uev_loop_fuel (f1 : Nat) :
    ∀ (f2 lzb : Nat) (r : Rbsp), 8 * r.buf.length < f1 + r.pos →
      8 * r.buf.length < f2 + r.pos →
      rbsp_read_uev_loop f1 lzb r = rbsp_read_uev_loop f2 lzb r := by
  induction f1 with
  | zero =>
    intro f2 lzb r h1 _
    have hnone : rbsp_read_bit r = none := by
      rw [rbsp_read_bit_eq, (bitAt_eq_none_iff _ _).2 (by omega)]
      rfl
    cases f2 with
    | zero => rfl
    | succ g => rw [rbsp_read_uev_loop, rbsp_read_uev_loop, hnone]
  | succ f ih =>
    intro f2 lzb r h1 h2
    cases f2 with
    | zero =>
      have hnone : rbsp_read_bit r = none := by
        rw [rbsp_read_bit_eq, (bitAt_eq_none_iff _ _).2 (by omega)]
        rfl
      rw [rbsp_read_uev_loop, rbsp_read_uev_loop, hnone]
    | succ g =>
      rw [rbsp_read_uev_loop, rbsp_read_uev_loop, rbsp_read_bit_eq]
      cases bitAt r.buf r.pos with
      | none => rfl
      | some b =>
        simp only [Option.map_some']
        split_ifs
        · exact ih g (lzb + 1) { r with pos := r.pos + 1 } (by simp only; omega)
            (by simp only; omega)
        · rfl

theorem rbsp_read_bit_buf (r r1 : Rbsp) (b : Nat) (h : rbsp_read_bit r = some (b, r1)) :
    r1.buf = r.buf ∧ b ≤ 1 := by
  rw [rbsp_read_bit_eq] at h
  cases hb : bitAt r.buf r.pos with
  | none => rw [hb] at h; cases h
  | some x =>
    rw [hb] at h
    simp only [Option.map_some', Option.some.injEq, Prod.mk.injEq] at h
    obtain ⟨rfl, rfl⟩ := h
    exact ⟨rfl, bitAt_le_one _ _ _ hb⟩

theorem rbsp_read_bits_loop_buf (n ret : Nat) (r r1 : Rbsp) (x : Nat)
    (h : rbsp_read_bits_loop n ret r = some (x, r1)) : r1.buf = r.buf := by
  induction n generalizing ret r with
  | zero =>
    simp only [rbsp_read_bits_loop, Option.some.injEq, Prod.mk.injEq] at h
    rw [← h.2]
  | succ n ih =>
    rw [rbsp_read_bits_loop] at h
    cases hb : rbsp_read_bit r with
    | none => rw [hb] at h; cases h
    | some p =>
      obtain ⟨b, r2⟩ := p
      rw [hb] at h
      rw [ih _ _ h, (rbsp_read_bit_buf _ _ _ hb).1]

theorem rbsp_read_bits_buf (n : Nat) (r r1 : Rbsp) (x : Nat)
    (h : rbsp_read_bits r n = some (x, r1)) : r1.buf = r.buf := by
  unfold rbsp_read_bits at h
  split_ifs at h
  exact rbsp_read_bits_loop_buf _ _ _ _ _ h

theorem rbsp_read_uev_loop_buf (fuel lzb : Nat) (r r1 : Rbsp) (x : Nat)
    (h : rbsp_read_uev_loop fuel lzb r = some (x, r1)) : r1.buf = r.buf := by
  induction fuel generalizing lzb r with
  | zero => cases h
  | succ n ih =>
    rw [rbsp_read_uev_loop] at h
    cases hb : rbsp_read_bit r with
    | none => rw [hb] at h; cases h
    | some p =>
      obtain ⟨b, r2⟩ := p
      rw [hb] at h
      have hbuf := (rbsp_read_bit_buf _ _ _ hb).1
      simp only at h
      split_ifs at h
      · rw [ih _ _ h, hbuf]
      · simp only [Option.some.injEq, Prod.mk.injEq] at h
        rw [← h.2, hbuf]

theorem rbsp_read_uev_buf (r r1 : Rbsp) (x : Nat)
    (h : rbsp_read_uev r = some (x, r1)) : r1.buf = r.buf := by
  unfold rbsp_read_uev at h
  cases hl : rbsp_read_uev_loop (8 * r.buf.length + 1) 0 r with
  | none => rw [hl] at h; cases h
  | some p =>
    obtain ⟨k, r2⟩ := p
    rw [hl] at h
    have hbuf := rbsp_read_uev_loop_buf _ _ _ _ _ hl
    simp only at h
    split_ifs at h with h31 h0
    · cases hr : rbsp_read_bits r2 k with
      | none => rw [hr] at h; cases h
      | some q =>
        obtain ⟨t, r3⟩ := q
        rw [hr] at h
        simp only [Option.some.injEq, Prod.mk.injEq] at h
        rw [← h.2, rbsp_read_bits_buf _ _ _ _ hr, hbuf]
    · simp only [Option.some.injEq, Prod.mk.injEq] at h
      rw [← h.2, hbuf]

theorem rbsp_read_sev_buf (r r1 : Rbsp) (x : Int)
    (h : rbsp_read_sev r = some (x, r1)) : r1.buf = r.buf := by
  unfold rbsp_read_sev at h
  cases hu : rbsp_read_uev r with
  | none => rw [hu] at h; cases h
  | some p =>
    obtain ⟨t, r2⟩ := p
    rw [hu] at h
    have hbuf := rbsp_read_uev_buf _ _ _ hu
    simp only at h
    split_ifs at h <;>
    · simp only [Option.some.injEq, Prod.mk.injEq] at h
      rw [← h.2, hbuf]

theorem coda_sps_fixup_ref_frames_buf (n : Nat) (r r1 : Rbsp)
    (h : coda_sps_fixup_ref_frames n r = some r1) : r1.buf = r.buf := by
  induction n generalizing r with
  | zero =>
    simp only [coda_sps_fixup_ref_frames, Option.some.injEq] at h
    rw [h]
  | succ n ih =>
    rw [coda_sps_fixup_ref_frames] at h
    cases hs : rbsp_read_sev r with
    | none => rw [hs] at h; cases h
    | some p =>
      obtain ⟨t, r2⟩ := p
      rw [hs] at h
      rw [ih _ h, rbsp_read_sev_buf _ _ _ hs]

theorem coda_sps_fixup_poc_buf (t : Nat) (r r1 : Rbsp)
    (h : coda_sps_fixup_poc t r = some r1) : r1.buf = r.buf := by
  unfold coda_sps_fixup_poc at h
  split_ifs at h
  · simp only [bind, Option.bind_eq_some, Prod.exists, pure, Option.some.injEq] at h
    obtain ⟨a, s, h1, rfl⟩ := h
    exact rbsp_read_uev_buf _ _ _ h1
  · simp only [bind, Option.bind_eq_some, Prod.exists] at h
    obtain ⟨a1, s1, h1, a2, s2, h2, a3, s3, h3, a4, s4, h4, h5⟩ := h
    rw [coda_sps_fixup_ref_frames_buf _ _ _ h5, rbsp_read_uev_buf _ _ _ h4,
      rbsp_read_sev_buf _ _ _ h3, rbsp_read_sev_buf _ _ _ h2, (rbsp_read_bit_buf _ _ _ h1).1]
  · simp only [pure, Option.some.injEq] at h
    rw [h]

theorem coda_sps_fixup_fields_spec (sps : Rbsp) (f : SpsFields)
    (h : coda_sps_fixup_fields sps = some f) :
    f.sps.buf = sps.buf ∧ f.frame_mbs_only_flag ≤ 1 ∧ f.vui_parameters_present_flag ≤ 1 := by
  unfold coda_sps_fixup_fields at h
  obtain ⟨⟨a1, s1⟩, h1, h⟩ := Option.bind_eq_some.1 h
  obtain ⟨⟨a2, s2⟩, h2, h⟩ := Option.bind_eq_some.1 h
  obtain ⟨s3, h3, h⟩ := Option.bind_eq_some.1 h
  obtain ⟨⟨a4, s4⟩, h4, h⟩ := Option.bind_eq_some.1 h
  obtain ⟨⟨a5, s5⟩, h5, h⟩ := Option.bind_eq_some.1 h
  obtain ⟨⟨a6, s6⟩, h6, h⟩ := Option.bind_eq_some.1 h
  obtain ⟨⟨a7, s7⟩, h7, h⟩ := Option.bind_eq_some.1 h
  obtain ⟨⟨a8, s8⟩, h8, h⟩ := Option.bind_eq_some.1 h
  obtain ⟨s9, h9, h⟩ := Option.bind_eq_some.1 h
  obtain ⟨⟨a10, s10⟩, h10, h⟩ := Option.bind_eq_some.1 h
  obtain ⟨⟨a11, s11⟩, h11, h⟩ := Option.bind_eq_some.1 h
  obtain ⟨s12, h12, h⟩ := Option.bind_eq_some.1 h
  obtain ⟨⟨a13, s13⟩, h13, h⟩ := Option.bind_eq_some.1 h
  simp only [pure, Option.some.injEq] at h
  subst h
  have e9 : s9.buf = s8.buf := by
    split_ifs at h9
    · cases hb : rbsp_read_bit s8 with
      | none => rw [hb] at h9; cases h9
      | some p =>
        obtain ⟨b, r2⟩ := p
        rw [hb] at h9
        simp only [Option.map_some', Option.some.injEq] at h9
        rw [← h9, (rbsp_read_bit_buf _ _ _ hb).1]
    · simp only [Option.some.injEq] at h9
      rw [h9]
  have e12 : s12.buf = s11.buf := by
    split_ifs at h12
    · obtain ⟨⟨c1, t1⟩, g1, h12⟩ := Option.bind_eq_some.1 h12
      obtain ⟨⟨c2, t2⟩, g2, h12⟩ := Option.bind_eq_some.1 h12
      obtain ⟨⟨c3, t3⟩, g3, h12⟩ := Option.bind_eq_some.1 h12
      obtain ⟨⟨c4, t4⟩, g4, h12⟩ := Option.bind_eq_some.1 h12
      simp only [pure, Option.some.injEq] at h12
      rw [← h12, rbsp_read_uev_buf _ _ _ g4, rbsp_read_uev_buf _ _ _ g3,
        rbsp_read_uev_buf _ _ _ g2, rbsp_read_uev_buf _ _ _ g1]
    · simp only [Option.some.injEq] at h12
      rw [h12]
  refine ⟨?_, (rbsp_read_bit_buf _ _ _ h8).2, (rbsp_read_bit_buf _ _ _ h13).2⟩
  show s13.buf = sps.buf
  rw [(rbsp_read_bit_buf _ _ _ h13).1, e12, (rbsp_read_bit_buf _ _ _ h11).1,
    (rbsp_read_bit_buf _ _ _ h10).1, e9, (rbsp_read_bit_buf _ _ _ h8).1,
    rbsp_read_uev_buf _ _ _ h7, rbsp_read_uev_buf _ _ _ h6, (rbsp_read_bit_buf _ _ _ h5).1,
    rbsp_read_uev_buf _ _ _ h4, coda_sps_fixup_poc_buf _ _ _ h3, rbsp_read_uev_buf _ _ _ h2,
    rbsp_read_uev_buf _ _ _ h1]

theorem bitAt_byte (buf : List Byte) (b : Byte) (q i : Nat) (hq : buf[q]? = some b) (hi : i < 8) :
    bitAt buf (8 * q + i) = some ((b.val >>> (7 - i)) &&& 1) := by
  unfold bitAt
  have e1 : (8 * q + i) / 8 = q := by omega
  have e2 : (8 * q + i) % 8 = i := by omega
  rw [e1, e2, hq]
  rfl

theorem BitsAt_byte (buf : List Byte) (b : Byte) (q : Nat) (hq : buf[q]? = some b) :
    BitsAt buf (8 * q) (bitsOf 8 b.val) := by
  rw [BitsAt_iff]
  intro i hi
  rw [bitsOf_length] at hi
  rw [bitAt_byte buf b q i hq hi, bitsOf_getElem_opt _ _ _ hi]

theorem coda_sps_fixup_header_spec (buf : List Byte) (h : SpsHeader)
    (hh : coda_sps_fixup_header buf = some h) :
    h.sps.buf = buf.drop 5 ∧ ∀ b, buf[5]? = some b → h.profile_idc = b.val := by
  unfold coda_sps_fixup_header at hh
  obtain ⟨⟨a1, s1⟩, h1, hh⟩ := Option.bind_eq_some.1 hh
  obtain ⟨⟨a2, s2⟩, h2, hh⟩ := Option.bind_eq_some.1 hh
  obtain ⟨⟨a3, s3⟩, h3, hh⟩ := Option.bind_eq_some.1 hh
  simp only [pure, Option.some.injEq] at hh
  subst hh
  have e1 := rbsp_read_bits_buf _ _ _ _ h1
  have e2 := rbsp_read_bits_buf _ _ _ _ h2
  have e3 := rbsp_read_uev_buf _ _ _ h3
  simp only at e1 e2 e3
  refine ⟨by show s3.buf = _; rw [e3, e2, e1], ?_⟩
  intro b hb
  have hb0 : (buf.drop 5)[0]? = some b := by rw [List.getElem?_drop]; exact hb
  have := rbsp_read_bits_of_BitsAt { buf := buf.drop 5, pos := 0 } 8 b.val (by norm_num)
    (BitsAt_byte _ b 0 hb0)
  rw [this] at h1
  simp only [Option.some.injEq, Prod.mk.injEq] at h1
  show a1 = b.val
  rw [← h1.1]
  have := b.isLt
  omega

/-! ## The rewrite of `coda_sps_fixup` -/

theorem round_up_sub_le (x : Nat) : round_up x 16 - x ≤ 15 := by
  unfold round_up
  omega

theorem crop_right_le (width : Nat) : crop_right width ≤ 7 := by
  have := round_up_sub_le width
  unfold crop_right
  omega

theorem crop_bottom_le (height flag : Nat) : crop_bottom height flag ≤ 7 := by
  have := round_up_sub_le height
  unfold crop_bottom
  split_ifs <;> omega

theorem ueBits_length_eq_ue_len (v : Nat) (hv : v < INT_MAX) : (ueBits v).length = ue_len v := by
  rw [ueBits_length, fls_eq_log2 (v + 1) (by unfold INT_MAX at hv; omega) (by omega), ue_len]

theorem cropBits_length (cr cb vui : Nat) (h1 : cr ≤ 7) (h2 : cb ≤ 7) :
    (cropBits cr cb vui).length = 5 + ue_len cr + ue_len cb := by
  have e0 : (ueBits 0).length = 1 := by decide
  simp only [cropBits, List.length_append, List.length_cons, List.length_nil, e0,
    ueBits_length_eq_ue_len cr (by unfold INT_MAX; omega),
    ueBits_length_eq_ue_len cb (by unfold INT_MAX; omega)]
  omega

theorem cropBits_le_one (cr cb vui : Nat) (hv : vui ≤ 1) : ∀ b ∈ cropBits cr cb vui, b ≤ 1 := by
  intro b hb
  simp only [cropBits, List.mem_append, List.mem_singleton] at hb
  rcases hb with rfl | hb | hb | hb | hb | rfl | rfl
  · omega
  · exact ueBits_le_one _ b hb
  · exact ueBits_le_one _ b hb
  · exact ueBits_le_one _ b hb
  · exact ueBits_le_one _ b hb
  · exact hv
  · omega

theorem coda_sps_fixup_rewrite_eq (width height : Nat) (f : SpsFields) :
    coda_sps_fixup_rewrite width height f =
      rbsp_put { f.sps with pos := f.pos }
        (cropBits (crop_right width) (crop_bottom height f.frame_mbs_only_flag)
          f.vui_parameters_present_flag) := by
  unfold coda_sps_fixup_rewrite cropBits
  simp only [rbsp_put_append, rbsp_put_single,
    ← rbsp_write_uev_eq _ 0 (by unfold INT_MAX; omega),
    ← rbsp_write_uev_eq _ (crop_right width)
      (by have := crop_right_le width; unfold INT_MAX; omega),
    ← rbsp_write_uev_eq _ (crop_bottom height f.frame_mbs_only_flag)
      (by have := crop_bottom_le height f.frame_mbs_only_flag; unfold INT_MAX; omega)]
  rfl

theorem coda_sps_fixup_rewrites (width height : Nat) (buf : List Byte) (size : Int)
    (h : SpsHeader) (f : SpsFields)
    (hhdr : coda_sps_fixup_header buf = some h)
    (hprof : ¬ unsupported_profile h.profile_idc)
    (hfld : coda_sps_fixup_fields h.sps = some f)
    (hvui : f.vui_parameters_present_flag = 0)
    (hfit : f.pos + 5 + ue_len (crop_right width)
        + ue_len (crop_bottom height f.frame_mbs_only_flag) ≤ 8 * (buf.length - 5)) :
    coda_sps_fixup width height buf size =
      some (buf.take 5 ++ writeBits (buf.drop 5) f.pos
              (cropBits (crop_right width) (crop_bottom height f.frame_mbs_only_flag) 0),
            ((5 + DIV_ROUND_UP (f.pos + 5 + ue_len (crop_right width)
              + ue_len (crop_bottom height f.frame_mbs_only_flag)) 8 : Nat) : Int)) := by
  have hbuf : f.sps.buf = buf.drop 5 := by
    rw [(coda_sps_fixup_fields_spec _ _ hfld).1, (coda_sps_fixup_header_spec _ _ hhdr).1]
  have hlen := cropBits_length (crop_right width) (crop_bottom height f.frame_mbs_only_flag) 0
    (crop_right_le width) (crop_bottom_le height _)
  unfold coda_sps_fixup
  rw [hhdr]
  simp only
  rw [if_neg hprof, hfld]
  simp only
  rw [if_neg (by rw [hvui]; simp), coda_sps_fixup_rewrite_eq, hvui,
    rbsp_put_some _ _ (by simp only [hbuf, hlen, List.length_drop]; omega)]
  simp only [hbuf, hlen, Nat.add_assoc]

theorem rbsp_read_bit_step (buf : List Byte) (p b : Nat) (rest : List Nat)
    (h : BitsAt buf p ([b] ++ rest)) :
    rbsp_read_bit { buf := buf, pos := p } = some (b, { buf := buf, pos := p + 1 }) ∧
      BitsAt buf (p + 1) rest :=
  ⟨rbsp_read_bit_of_BitsAt { buf := buf, pos := p } b rest h, h.2⟩

theorem rbsp_read_uev_step (buf : List Byte) (p v : Nat) (rest : List Nat) (hv : v < INT_MAX)
    (h : BitsAt buf p (ueBits v ++ rest)) :
    rbsp_read_uev { buf := buf, pos := p }
        = some (v, { buf := buf, pos := p + (ueBits v).length }) ∧
      BitsAt buf (p + (ueBits v).length) rest := by
  rw [BitsAt_append] at h
  exact ⟨rbsp_read_uev_of_BitsAt { buf := buf, pos := p } v hv h.1, h.2⟩

theorem crop_bottom_eq (height flag : Nat) (hf : flag ≤ 1) :
    crop_bottom height flag =
      if flag = 1 then (round_up height 16 - height) / 2
      else (round_up height 16 - height) / 4 := by
  unfold crop_bottom
  have : flag = 0 ∨ flag = 1 := by omega
  rcases this with rfl | rfl <;> simp

theorem cropBits_reads (X : List Byte) (p cr cb vui : Nat) (hcr : cr ≤ 7) (hcb : cb ≤ 7)
    (hb : BitsAt X p (cropBits cr cb vui)) :
    ∃ r1 r2 r3 r4 r5 r6 r7,
      rbsp_read_bit { buf := X, pos := p } = some (1, r1) ∧
      rbsp_read_uev r1 = some (0, r2) ∧
      rbsp_read_uev r2 = some (cr, r3) ∧
      rbsp_read_uev r3 = some (0, r4) ∧
      rbsp_read_uev r4 = some (cb, r5) ∧
      rbsp_read_bit r5 = some (vui, r6) ∧
      rbsp_read_bit r6 = some (1, r7) := by
  unfold cropBits at hb
  have hmax : ∀ v, v ≤ 7 → v < INT_MAX := fun v hv => by unfold INT_MAX; omega
  obtain ⟨g1, hb⟩ := rbsp_read_bit_step _ _ _ _ hb
  obtain ⟨g2, hb⟩ := rbsp_read_uev_step _ _ _ _ (hmax 0 (by omega)) hb
  obtain ⟨g3, hb⟩ := rbsp_read_uev_step _ _ _ _ (hmax _ hcr) hb
  obtain ⟨g4, hb⟩ := rbsp_read_uev_step _ _ _ _ (hmax 0 (by omega)) hb
  obtain ⟨g5, hb⟩ := rbsp_read_uev_step _ _ _ _ (hmax _ hcb) hb
  obtain ⟨g6, hb⟩ := rbsp_read_bit_step _ _ _ _ hb
  have g7 := rbsp_read_bit_of_BitsAt { buf := X, pos := _ } 1 [] hb
  exact ⟨_, _, _, _, _, _, _, g1, g2, g3, g4, g5, g6, g7⟩

/-- C1: when the bits from byte offset 5 parse as an SPS of a supported
profile with vui_parameters_present_flag = 0 and the buffer has room for the
rewrite, `coda_sps_fixup` succeeds, and reading the new buffer again from the
saved position gives frame_cropping_flag = 1, crop_left = 0,
crop_right = (round_up(width,16) - width) / 2, crop_top = 0,
crop_bottom = (round_up(height,16) - height) / 2 if frame_mbs_only_flag is 1
and / 4 otherwise, then vui_parameters_present_flag = 0 and the stop bit 1;
for width = height = 100 and frame_mbs_only_flag = 1 both crops are 6. -/
theorem sps_fixup_reparse (width height : Nat) (buf : List Byte) (size : Int)
    (h : SpsHeader) (f : SpsFields)
    (hw : 0 < width) (hh : 0 < height)
    (hhdr : coda_sps_fixup_header buf = some h)
    (hprof : ¬ unsupported_profile h.profile_idc)
    (hfld : coda_sps_fixup_fields h.sps = some f)
    (hvui : f.vui_parameters_present_flag = 0)
    (hfit : f.pos + 5 + ue_len (crop_right width)
        + ue_len (crop_bottom height f.frame_mbs_only_flag) ≤ 8 * (buf.length - 5)) :
    (∃ buf1 size1 r1 r2 r3 r4 r5 r6 r7,
      coda_sps_fixup width height buf size = some (buf1, size1) ∧
      rbsp_read_bit { buf := buf1.drop 5, pos := f.pos } = some (1, r1) ∧
      rbsp_read_uev r1 = some (0, r2) ∧
      rbsp_read_uev r2 = some ((round_up width 16 - width) / 2, r3) ∧
      rbsp_read_uev r3 = some (0, r4) ∧
      rbsp_read_uev r4 = some
        (if f.frame_mbs_only_flag = 1 then (round_up height 16 - height) / 2
         else (round_up height 16 - height) / 4, r5) ∧
      rbsp_read_bit r5 = some (0, r6) ∧
      rbsp_read_bit r6 = some (1, r7)) ∧
    (width = 100 → height = 100 → f.frame_mbs_only_flag = 1 →
      (round_up width 16 - width) / 2 = 6 ∧ (round_up height 16 - height) / 2 = 6) := by
  have hmbs := (coda_sps_fixup_fields_spec _ _ hfld).2.1
  have hcr := crop_right_le width
  have hcb := crop_bottom_le height f.frame_mbs_only_flag
  have hlen := cropBits_length (crop_right width) (crop_bottom height f.frame_mbs_only_flag) 0
    hcr hcb
  have hb : BitsAt (writeBits (buf.drop 5) f.pos
      (cropBits (crop_right width) (crop_bottom height f.frame_mbs_only_flag) 0)) f.pos
      (cropBits (crop_right width) (crop_bottom height f.frame_mbs_only_flag) 0) :=
    BitsAt_writeBits _ _ _ (cropBits_le_one _ _ _ (by omega))
      (by rw [hlen, List.length_drop]; omega)
  have hdrop : ∀ X : List Byte, (buf.take 5 ++ X).drop 5 = X := fun X =>
    List.drop_left' (by rw [List.length_take]; omega)
  obtain ⟨r1, r2, r3, r4, r5, r6, r7, g1, g2, g3, g4, g5, g6, g7⟩ :=
    cropBits_reads _ _ _ _ _ hcr hcb hb
  rw [crop_bottom_eq _ _ hmbs] at g5
  refine ⟨⟨_, _, r1, r2, r3, r4, r5, r6, r7,
    coda_sps_fixup_rewrites width height buf size h f hhdr hprof hfld hvui hfit,
    ?_, g2, g3, g4, g5, g6, g7⟩, ?_⟩
  · rw [hdrop]; exact g1
  · rintro rfl rfl _
    decide

theorem sps_fixup_reparse_witness :
    (∃ buf1 size1 r1 r2 r3 r4 r5 r6 r7,
      coda_sps_fixup 100 100 sample_sps 11 = some (buf1, size1) ∧
      rbsp_read_bit { buf := buf1.drop 5, pos := sample_fields.pos } = some (1, r1) ∧
      rbsp_read_uev r1 = some (0, r2) ∧
      rbsp_read_uev r2 = some ((round_up 100 16 - 100) / 2, r3) ∧
      rbsp_read_uev r3 = some (0, r4) ∧
      rbsp_read_uev r4 = some
        (if sample_fields.frame_mbs_only_flag = 1 then (round_up 100 16 - 100) / 2
         else (round_up 100 16 - 100) / 4, r5) ∧
      rbsp_read_bit r5 = some (0, r6) ∧
      rbsp_read_bit r6 = some (1, r7)) ∧
    ((100 : Nat) = 100 → (100 : Nat) = 100 → sample_fields.frame_mbs_only_flag = 1 →
      (round_up 100 16 - 100) / 2 = 6 ∧ (round_up 100 16 - 100) / 2 = 6) :=
  sps_fixup_reparse 100 100 sample_sps 11 sample_header sample_fields
    (by decide) (by decide) (by decide) (by decide) (by decide) (by decide)
    (by simp [ue_len, Nat.log2, sample_fields, sample_sps, crop_right, crop_bottom, round_up])

theorem bitAt_drop (buf : List Byte) (q j : Nat) :
    bitAt (buf.drop q) j = bitAt buf (8 * q + j) := by
  unfold bitAt
  have e1 : (8 * q + j) / 8 = q + j / 8 := by omega
  have e2 : (8 * q + j) % 8 = j % 8 := by omega
  rw [List.getElem?_drop, e1, e2]

/-- C2: when `coda_sps_fixup` rewrites the buffer, the buffer keeps its
length, its 5 leading bytes, every bit of the region from byte offset 5 that
precedes the saved position, and every bit at or after the final cursor
position; only bits in [splice, final) can differ. -/
theorem sps_fixup_frame (width height : Nat) (buf : List Byte) (size : Int)
    (h : SpsHeader) (f : SpsFields)
    (hhdr : coda_sps_fixup_header buf = some h)
    (hprof : ¬ unsupported_profile h.profile_idc)
    (hfld : coda_sps_fixup_fields h.sps = some f)
    (hvui : f.vui_parameters_present_flag = 0)
    (hfit : f.pos + 5 + ue_len (crop_right width)
        + ue_len (crop_bottom height f.frame_mbs_only_flag) ≤ 8 * (buf.length - 5)) :
    ∃ buf1 size1,
      coda_sps_fixup width height buf size = some (buf1, size1) ∧
      buf1.length = buf.length ∧
      buf1.take 5 = buf.take 5 ∧
      (∀ j, j < f.pos ∨ f.pos + 5 + ue_len (crop_right width)
            + ue_len (crop_bottom height f.frame_mbs_only_flag) ≤ j →
          bitAt (buf1.drop 5) j = bitAt (buf.drop 5) j) ∧
      (∀ j, j < 40 + f.pos ∨ 40 + (f.pos + 5 + ue_len (crop_right width)
            + ue_len (crop_bottom height f.frame_mbs_only_flag)) ≤ j →
          bitAt buf1 j = bitAt buf j) := by
  have hcr := crop_right_le width
  have hcb := crop_bottom_le height f.frame_mbs_only_flag
  have hlen := cropBits_length (crop_right width) (crop_bottom height f.frame_mbs_only_flag) 0
    hcr hcb
  have hbits := cropBits_le_one (crop_right width) (crop_bottom height f.frame_mbs_only_flag) 0
    (by omega)
  have htake : (buf.take 5).length = 5 := by rw [List.length_take]; omega
  have hdrop : ∀ X : List Byte, (buf.take 5 ++ X).drop 5 = X := fun X => List.drop_left' htake
  have hrel : ∀ j, j < f.pos ∨ f.pos + 5 + ue_len (crop_right width)
      + ue_len (crop_bottom height f.frame_mbs_only_flag) ≤ j →
      bitAt (writeBits (buf.drop 5) f.pos
        (cropBits (crop_right width) (crop_bottom height f.frame_mbs_only_flag) 0)) j
        = bitAt (buf.drop 5) j := by
    intro j hj
    apply bitAt_writeBits_outside _ _ _ _ hbits
    rw [hlen]
    omega
  refine ⟨_, _, coda_sps_fixup_rewrites width height buf size h f hhdr hprof hfld hvui hfit,
    ?_, ?_, ?_, ?_⟩
  · rw [List.length_append, htake, writeBits_length, List.length_drop]
    omega
  · exact List.take_left' htake
  · intro j hj
    rw [hdrop]
    exact hrel j hj
  · intro j hj
    by_cases hj40 : j < 40
    · unfold bitAt
      rw [List.getElem?_append_left (by rw [htake]; omega), List.getElem?_take_of_lt (by omega)]
    · obtain ⟨i, rfl⟩ : ∃ i, j = 8 * 5 + i := ⟨j - 40, by omega⟩
      rw [← bitAt_drop, ← bitAt_drop, hdrop]
      exact hrel i (by omega)

theorem sps_fixup_frame_witness :
    ∃ buf1 size1,
      coda_sps_fixup 100 100 sample_sps 11 = some (buf1, size1) ∧
      buf1.length = sample_sps.length ∧
      buf1.take 5 = sample_sps.take 5 ∧
      (∀ j, j < sample_fields.pos ∨ sample_fields.pos + 5 + ue_len (crop_right 100)
            + ue_len (crop_bottom 100 sample_fields.frame_mbs_only_flag) ≤ j →
          bitAt (buf1.drop 5) j = bitAt (sample_sps.drop 5) j) ∧
      (∀ j, j < 40 + sample_fields.pos ∨ 40 + (sample_fields.pos + 5 + ue_len (crop_right 100)
            + ue_len (crop_bottom 100 sample_fields.frame_mbs_only_flag)) ≤ j →
          bitAt buf1 j = bitAt sample_sps j) :=
  sps_fixup_frame 100 100 sample_sps 11 sample_header sample_fields
    (by decide) (by decide) (by decide) (by decide)
    (by simp [ue_len, Nat.log2, sample_fields, sample_sps, crop_right, crop_bottom, round_up])

/-- C3: when byte 5 of the buffer, the first SPS byte, is a profile_idc in
{100,110,122,244,44,83,86,118,128} and the reads that precede the profile
test stay inside the buffer, `coda_sps_fixup` leaves the buffer and `*size`
unchanged, for every width, height and incoming `*size`. -/
theorem sps_fixup_unsupported_profile (width height : Nat) (buf : List Byte) (size : Int)
    (p : Byte) (hb : buf[5]? = some p) (hp : unsupported_profile p.val)
    (hdef : (coda_sps_fixup_header buf).isSome) :
    coda_sps_fixup width height buf size = some (buf, size) := by
  obtain ⟨h, hh⟩ := Option.isSome_iff_exists.1 hdef
  have hprof : h.profile_idc = p.val := (coda_sps_fixup_header_spec buf h hh).2 p hb
  unfold coda_sps_fixup
  rw [hh]
  simp only
  rw [if_pos (by rw [hprof]; exact hp)]

theorem sps_fixup_unsupported_profile_witness :
    coda_sps_fixup 100 100 sample_high 9 = some (sample_high, 9) :=
  sps_fixup_unsupported_profile 100 100 sample_high 9 100 (by decide) (by decide) (by decide)

/-- C4: when the buffer parses as an SPS of a supported profile whose
vui_parameters_present_flag bit, read after the optional cropping fields, is
1, `coda_sps_fixup` leaves the buffer and `*size` unchanged. -/
theorem sps_fixup_vui_present (width height : Nat) (buf : List Byte) (size : Int)
    (h : SpsHeader) (f : SpsFields)
    (hhdr : coda_sps_fixup_header buf = some h)
    (hprof : ¬ unsupported_profile h.profile_idc)
    (hfld : coda_sps_fixup_fields h.sps = some f)
    (hvui : f.vui_parameters_present_flag = 1) :
    coda_sps_fixup width height buf size = some (buf, size) := by
  unfold coda_sps_fixup
  rw [hhdr]
  simp only
  rw [if_neg hprof, hfld]
  simp only
  rw [if_pos (by rw [hvui]; decide)]

theorem sps_fixup_vui_present_witness :
    coda_sps_fixup 100 100 sample_vui 11 = some (sample_vui, 11) :=
  sps_fixup_vui_present 100 100 sample_vui 11 sample_vui_header sample_vui_fields
    (by decide) (by decide) (by decide) (by decide)

theorem coda_sps_fixup_rewrite_some (width height : Nat) (f : SpsFields)
    (hvui : f.vui_parameters_present_flag = 0)
    (hfit : f.pos + 5 + ue_len (crop_right width)
        + ue_len (crop_bottom height f.frame_mbs_only_flag) ≤ 8 * f.sps.buf.length) :
    coda_sps_fixup_rewrite width height f =
      some { buf := writeBits f.sps.buf f.pos
               (cropBits (crop_right width) (crop_bottom height f.frame_mbs_only_flag) 0),
             pos := f.pos + 5 + ue_len (crop_right width)
               + ue_len (crop_bottom height f.frame_mbs_only_flag) } := by
  have hlen := cropBits_length (crop_right width) (crop_bottom height f.frame_mbs_only_flag) 0
    (crop_right_le width) (crop_bottom_le height _)
  rw [coda_sps_fixup_rewrite_eq, hvui, rbsp_put_some _ _ (by simp only [hlen]; omega)]
  simp only [hlen, Nat.add_assoc]

/-- C5: when `coda_sps_fixup` rewrites the buffer, the cursor after the stop
bit is at `final = splice + 5 + (2 * floor(log2 (crop_right + 1)) + 1)
  + (2 * floor(log2 (crop_bottom + 1)) + 1)` and the value stored in `*size`
is `5 + ceil(final / 8)`, whatever the incoming `*size`. -/
theorem sps_fixup_size (width height : Nat) (buf : List Byte)
    (h : SpsHeader) (f : SpsFields)
    (hhdr : coda_sps_fixup_header buf = some h)
    (hprof : ¬ unsupported_profile h.profile_idc)
    (hfld : coda_sps_fixup_fields h.sps = some f)
    (hvui : f.vui_parameters_present_flag = 0)
    (hfit : f.pos + 5 + ue_len (crop_right width)
        + ue_len (crop_bottom height f.frame_mbs_only_flag) ≤ 8 * (buf.length - 5)) :
    ∃ buf1 sps1,
      coda_sps_fixup_rewrite width height f = some sps1 ∧
      sps1.pos = f.pos + 5 + (2 * Nat.log2 (crop_right width + 1) + 1)
          + (2 * Nat.log2 (crop_bottom height f.frame_mbs_only_flag + 1) + 1) ∧
      ∀ size : Int,
        coda_sps_fixup width height buf size =
          some (buf1, ((5 + (f.pos + 5 + (2 * Nat.log2 (crop_right width + 1) + 1)
            + (2 * Nat.log2 (crop_bottom height f.frame_mbs_only_flag + 1) + 1) + 7) / 8 : Nat)
              : Int)) := by
  have hbuf : f.sps.buf = buf.drop 5 := by
    rw [(coda_sps_fixup_fields_spec _ _ hfld).1, (coda_sps_fixup_header_spec _ _ hhdr).1]
  refine ⟨buf.take 5 ++ writeBits (buf.drop 5) f.pos
    (cropBits (crop_right width) (crop_bottom height f.frame_mbs_only_flag) 0), _,
    coda_sps_fixup_rewrite_some width height f hvui (by rw [hbuf, List.length_drop]; exact hfit),
    rfl, fun size => ?_⟩
  rw [coda_sps_fixup_rewrites width height buf size h f hhdr hprof hfld hvui hfit]
  simp only [DIV_ROUND_UP, ue_len]
  rfl

theorem sps_fixup_size_witness :
    ∃ buf1 sps1,
      coda_sps_fixup_rewrite 100 100 sample_fields = some sps1 ∧
      sps1.pos = sample_fields.pos + 5 + (2 * Nat.log2 (crop_right 100 + 1) + 1)
          + (2 * Nat.log2 (crop_bottom 100 sample_fields.frame_mbs_only_flag + 1) + 1) ∧
      ∀ size : Int,
        coda_sps_fixup 100 100 sample_sps size =
          some (buf1, ((5 + (sample_fields.pos + 5 + (2 * Nat.log2 (crop_right 100 + 1) + 1)
            + (2 * Nat.log2 (crop_bottom 100 sample_fields.frame_mbs_only_flag + 1) + 1) + 7) / 8
              : Nat) : Int)) :=
  sps_fixup_size 100 100 sample_sps sample_header sample_fields
    (by decide) (by decide) (by decide) (by decide)
    (by simp [ue_len, Nat.log2, sample_fields, sample_sps, crop_right, crop_bottom, round_up])

theorem sample_sps_fixup_eval :
    coda_sps_fixup 100 100 sample_sps 11 =
      some ([0x00, 0x00, 0x00, 0x01, 0x67, 0x42, 0x00, 0x1e, 0xf4, 0x39, 0xfc, 0xf3, 0xa0],
        13) := by
  decide

/-! ## Filler NAL units and padding -/

theorem store_append (pre : List Byte) (x v : Byte) (xs : List Byte) :
    store (pre ++ x :: xs) pre.length v = some (pre ++ v :: xs) := by
  unfold store
  rw [if_pos (by simp), List.set_append_right _ _ (le_refl _)]
  simp

theorem memset_append (pre rest : List Byte) (c : Byte) (n : Nat) (hn : n ≤ rest.length) :
    memset (pre ++ rest) pre.length c n = some (pre ++ List.replicate n c ++ rest.drop n) := by
  induction n generalizing pre rest with
  | zero => simp [memset]
  | succ n ih =>
    cases rest with
    | nil => simp at hn
    | cons x xs =>
      rw [memset, store_append]
      simp only
      have := ih (pre ++ [c]) xs (by simpa using hn)
      simp only [List.length_append, List.length_singleton, List.append_assoc,
        List.singleton_append] at this
      rw [this]
      simp [List.replicate_succ]

theorem coda_h264_filler_nal_ok (size : Nat) (p : List Byte) (h6 : 6 ≤ size)
    (hp : size ≤ p.length) :
    coda_h264_filler_nal (size : Int) p = some (0, filler_nal_bytes size ++ p.drop size) := by
  obtain ⟨n, rfl⟩ : ∃ n, size = n + 6 := ⟨size - 6, by omega⟩
  match p, hp with
  | a0 :: a1 :: a2 :: a3 :: a4 :: rest, hp =>
    simp only [List.length_cons] at hp
    have hrest : n < rest.length := by omega
    obtain ⟨x, xs, hx⟩ : ∃ x xs, rest.drop n = x :: xs := by
      cases hd : rest.drop n with
      | nil =>
        have := congrArg List.length hd
        simp at this
        omega
      | cons x xs => exact ⟨x, xs, rfl⟩
    have hxs : xs = rest.drop (n + 1) := by
      have := congrArg List.tail hx
      simpa [List.tail_drop] using this.symm
    unfold coda_h264_filler_nal
    rw [if_neg (by omega)]
    have e1 : ((n + 6 : Nat) : Int) - 6 = (n : Int) := by push_cast; ring
    have e2 : ((n + 6 : Nat) : Int) - 1 = ((n + 5 : Nat) : Int) := by push_cast; ring
    rw [e1, e2, Int.toNat_ofNat, Int.toNat_ofNat]
    have s0 : store (a0 :: a1 :: a2 :: a3 :: a4 :: rest) 0 0x00
        = some (0x00 :: a1 :: a2 :: a3 :: a4 :: rest) := by simp [store]
    have s1 : store (0x00 :: a1 :: a2 :: a3 :: a4 :: rest) 1 0x00
        = some (0x00 :: 0x00 :: a2 :: a3 :: a4 :: rest) := by simp [store]
    have s2 : store (0x00 :: 0x00 :: a2 :: a3 :: a4 :: rest) 2 0x00
        = some (0x00 :: 0x00 :: 0x00 :: a3 :: a4 :: rest) := by simp [store]
    have s3 : store (0x00 :: 0x00 :: 0x00 :: a3 :: a4 :: rest) 3 0x01
        = some (0x00 :: 0x00 :: 0x00 :: 0x01 :: a4 :: rest) := by simp [store]
    have s4 : store (0x00 :: 0x00 :: 0x00 :: 0x01 :: a4 :: rest) 4 0x0c
        = some (0x00 :: 0x00 :: 0x00 :: 0x01 :: 0x0c :: rest) := by simp [store]
    have m : memset (0x00 :: 0x00 :: 0x00 :: 0x01 :: 0x0c :: rest) 5 0xff n
        = some (0x00 :: 0x00 :: 0x00 :: 0x01 :: 0x0c :: (List.replicate n 0xff ++ x :: xs)) := by
      have := memset_append [0x00, 0x00, 0x00, 0x01, 0x0c] rest 0xff n (by omega)
      rw [hx] at this
      simpa using this
    have st : store (0x00 :: 0x00 :: 0x00 :: 0x01 :: 0x0c :: (List.replicate n 0xff ++ x :: xs))
        (n + 5) 0x80
        = some (0x00 :: 0x00 :: 0x00 :: 0x01 :: 0x0c :: (List.replicate n 0xff ++ 0x80 :: xs)) := by
      have := store_append ([0x00, 0x00, 0x00, 0x01, 0x0c] ++ List.replicate n 0xff) x 0x80 xs
      simp only [List.length_append, List.length_cons, List.length_nil,
        List.length_replicate] at this
      have e : 0 + 1 + 1 + 1 + 1 + 1 + n = n + 5 := by omega
      rw [e] at this
      simpa using this
    simp only [Option.bind_eq_bind, s0, s1, s2, s3, s4, m, st, Option.some_bind, pure]
    have e3 : List.drop (n + 6) (a0 :: a1 :: a2 :: a3 :: a4 :: rest) = xs := by
      rw [hxs]; rfl
    rw [e3]
    simp [filler_nal_bytes]

/-- C10: for `size ≥ 6` and a buffer of at least `size` bytes,
`coda_h264_filler_nal` returns 0 and leaves `00 00 00 01 0c`, `size - 6`
bytes `ff` and a final `80` in `p[0..size)`, every byte from index `size` on
unchanged; for size 12 these are `00 00 00 01 0c ff ff ff ff ff ff 80`. -/
theorem h264_filler_nal_shape (size : Nat) (p : List Byte) (h6 : 6 ≤ size)
    (hp : size ≤ p.length) :
    coda_h264_filler_nal (size : Int) p =
      some (0, ([0x00, 0x00, 0x00, 0x01, 0x0c] ++ List.replicate (size - 6) 0xff ++ [0x80])
        ++ p.drop size) ∧
    (size = 12 →
      coda_h264_filler_nal 12 p =
        some (0, [0x00, 0x00, 0x00, 0x01, 0x0c, 0xff, 0xff, 0xff, 0xff, 0xff, 0xff, 0x80]
          ++ p.drop 12)) := by
  have hmain := coda_h264_filler_nal_ok size p h6 hp
  refine ⟨hmain, ?_⟩
  rintro rfl
  exact hmain

theorem h264_filler_nal_shape_witness :
    coda_h264_filler_nal ((12 : Nat) : Int) (List.replicate 14 0x03) =
      some (0, ([0x00, 0x00, 0x00, 0x01, 0x0c] ++ List.replicate (12 - 6) 0xff ++ [0x80])
        ++ (List.replicate 14 0x03).drop 12) ∧
    ((12 : Nat) = 12 →
      coda_h264_filler_nal 12 (List.replicate 14 0x03) =
        some (0, [0x00, 0x00, 0x00, 0x01, 0x0c, 0xff, 0xff, 0xff, 0xff, 0xff, 0xff, 0x80]
          ++ (List.replicate 14 0x03).drop 12)) :=
  h264_filler_nal_shape 12 (List.replicate 14 0x03) (by decide) (by decide)

theorem and_not_seven (size : Nat) (hs : size < 2 ^ 32) :
    size &&& 0xfffffff8 = size / 8 * 8 := by
  have e : (0xfffffff8 : Nat) = (2 ^ 29 - 1) <<< 3 := by decide
  have e8 : size / 8 * 8 = (size >>> 3) <<< 3 := by
    rw [Nat.shiftRight_eq_div_pow, Nat.shiftLeft_eq]
  rw [e, e8]
  apply Nat.eq_of_testBit_eq
  intro i
  rw [Nat.testBit_land, Nat.testBit_shiftLeft, Nat.testBit_shiftLeft,
    Nat.testBit_two_pow_sub_one, Nat.testBit_shiftRight]
  by_cases h3 : 3 ≤ i
  · have e3 : 3 + (i - 3) = i := by omega
    rw [e3]
    by_cases h32 : i < 32
    · have : i - 3 < 29 := by omega
      simp [h3, this]
    · have hlt : size < 2 ^ i :=
        lt_of_lt_of_le hs (Nat.pow_le_pow_right (by norm_num) (by omega))
      simp [Nat.testBit_lt_two_pow hlt]
  · simp [h3]

theorem padding_diff (size : Nat) (hs : size ≤ INT_MAX) :
    size - (size &&& 0xfffffff8) = size % 8 := by
  rw [and_not_seven size (by unfold INT_MAX at hs; omega)]
  omega

theorem coda_filler_size_spec :
    ∀ d, d < 8 → d ≠ 0 → ∃ n, coda_filler_size[d]? = some n ∧ 6 ≤ n ∧ (d + n) % 8 = 0 := by
  decide

/-- C9: for `size ≥ 0` with `d = size mod 8`: if `d = 0`, `coda_h264_padding`
returns 0 and leaves the buffer unchanged; otherwise it returns the entry `n`
of `coda_filler_size` at index `d`, writes a filler NAL unit of exactly `n`
bytes at `p` (given room for it), and `n ≥ 6` and `(size + n) mod 8 = 0`. -/
theorem h264_padding_aligns (size : Nat) (p : List Byte) (hs : size ≤ INT_MAX) :
    (size % 8 = 0 → coda_h264_padding size p = some (0, p)) ∧
    (size % 8 ≠ 0 →
      ∃ n, coda_filler_size[size % 8]? = some n ∧ 6 ≤ n ∧ (size + n) % 8 = 0 ∧
        (n ≤ p.length →
          coda_h264_padding size p =
            some ((n : Int),
              ([0x00, 0x00, 0x00, 0x01, 0x0c] ++ List.replicate (n - 6) 0xff ++ [0x80])
                ++ p.drop n))) := by
  have hd := padding_diff size hs
  constructor
  · intro h0
    unfold coda_h264_padding
    simp only [hd, h0, if_true]
  · intro h0
    have hlt : size % 8 < 8 := Nat.mod_lt _ (by norm_num)
    obtain ⟨n, hn, hn6, hal⟩ := coda_filler_size_spec (size % 8) hlt h0
    refine ⟨n, hn, hn6, by omega, fun hp => ?_⟩
    unfold coda_h264_padding
    simp only [hd, h0, if_false, hn]
    rw [coda_h264_filler_nal_ok n p hn6 hp]
    rfl

theorem h264_padding_aligns_witness :
    ((17 : Nat) % 8 = 0 → coda_h264_padding 17 (List.replicate 8 0x03)
        = some (0, List.replicate 8 0x03)) ∧
    ((17 : Nat) % 8 ≠ 0 →
      ∃ n, coda_filler_size[17 % 8]? = some n ∧ 6 ≤ n ∧ (17 + n) % 8 = 0 ∧
        (n ≤ (List.replicate 8 (0x03 : Byte)).length →
          coda_h264_padding 17 (List.replicate 8 0x03) =
            some ((n : Int),
              ([0x00, 0x00, 0x00, 0x01, 0x0c] ++ List.replicate (n - 6) 0xff ++ [0x80])
                ++ (List.replicate 8 0x03).drop n))) :=
  h264_padding_aligns 17 (List.replicate 8 0x03) (by decide)

/-! ## Start-code scan -/

theorem window_step (v b : Nat) (hb : b < 256) :
    ((v <<< 8) % 4294967296) ||| b = (v % 16777216) * 256 + b := by
  have e1 : (v <<< 8) % 4294967296 = 2 ^ 8 * (v % 16777216) := by
    rw [Nat.shiftLeft_eq]
    omega
  rw [e1, ← Nat.mul_add_lt_is_or (by simpa using hb)]
  omega

theorem scanVal_succ (mem : List Byte) (start n : Nat) :
    scanVal mem start (n + 1) =
      (scanVal mem start n % 16777216) * 256 + (mem.getD (start + n) 0).val := by
  rw [scanVal, window_step _ _ (mem.getD (start + n) 0).isLt]

theorem scanVal_eq_one_iff (mem : List Byte) (start m : Nat) :
    scanVal mem start m = 1 ↔
      4 ≤ m ∧ (mem.getD (start + (m - 4)) 0).val = 0 ∧ (mem.getD (start + (m - 3)) 0).val = 0 ∧
        (mem.getD (start + (m - 2)) 0).val = 0 ∧ (mem.getD (start + (m - 1)) 0).val = 1 := by
  by_cases h4 : 4 ≤ m
  · obtain ⟨k, rfl⟩ : ∃ k, m = k + 4 := ⟨m - 4, by omega⟩
    have e4 : scanVal mem start (k + 4) = _ := scanVal_succ mem start (k + 3)
    have e3 : scanVal mem start (k + 3) = _ := scanVal_succ mem start (k + 2)
    have e2 : scanVal mem start (k + 2) = _ := scanVal_succ mem start (k + 1)
    have e1 : scanVal mem start (k + 1) = _ := scanVal_succ mem start k
    have b4 := (mem.getD (start + (k + 3)) 0).isLt
    have b3 := (mem.getD (start + (k + 2)) 0).isLt
    have b2 := (mem.getD (start + (k + 1)) 0).isLt
    have b1 := (mem.getD (start + k) 0).isLt
    have i4 : k + 4 - 1 = k + 3 := by omega
    have i3 : k + 4 - 2 = k + 2 := by omega
    have i2 : k + 4 - 3 = k + 1 := by omega
    have i1 : k + 4 - 4 = k := by omega
    rw [i1, i2, i3, i4]
    omega
  · have hm : m = 0 ∨ m = 1 ∨ m = 2 ∨ m = 3 := by omega
    have e3 : scanVal mem start 3 = _ := scanVal_succ mem start 2
    have e2 : scanVal mem start 2 = _ := scanVal_succ mem start 1
    have e1 : scanVal mem start 1 = _ := scanVal_succ mem start 0
    have e0 : scanVal mem start 0 = 4294967295 := rfl
    have b3 := (mem.getD (start + 2) 0).isLt
    have b2 := (mem.getD (start + 1) 0).isLt
    have b1 := (mem.getD (start + 0) 0).isLt
    constructor
    · intro h
      rcases hm with rfl | rfl | rfl | rfl <;> omega
    · intro h
      omega

theorem coda_find_nal_header_loop_found (mem : List Byte) (start end_ k : Nat) :
    ∀ n fuel, k < fuel → start + n + k + 1 < end_ → end_ ≤ mem.length →
      (∀ j, j < k → scanVal mem start (n + 1 + j) ≠ 1) →
      scanVal mem start (n + 1 + k) = 1 →
      coda_find_nal_header_loop fuel mem (scanVal mem start n) (start + n) end_
        = some (some (start + n + 1 + k)) := by
  induction k with
  | zero =>
    intro n fuel hf hlt hend _ hhit
    obtain ⟨f, rfl⟩ : ∃ f, fuel = f + 1 := ⟨fuel - 1, by omega⟩
    have hidx : start + n < mem.length := by omega
    rw [coda_find_nal_header_loop, List.getElem?_eq_getElem hidx]
    simp only
    have hv : ((scanVal mem start n <<< 8) % 4294967296) ||| (mem[start + n]).val
        = scanVal mem start (n + 1) := by
      rw [scanVal, List.getD_eq_getElem _ _ hidx]
    rw [hv, if_neg (by omega), if_neg (by simpa using hhit)]
  | succ k ih =>
    intro n fuel hf hlt hend hno hhit
    obtain ⟨f, rfl⟩ : ∃ f, fuel = f + 1 := ⟨fuel - 1, by omega⟩
    have hidx : start + n < mem.length := by omega
    rw [coda_find_nal_header_loop, List.getElem?_eq_getElem hidx]
    simp only
    have hv : ((scanVal mem start n <<< 8) % 4294967296) ||| (mem[start + n]).val
        = scanVal mem start (n + 1) := by
      rw [scanVal, List.getD_eq_getElem _ _ hidx]
    rw [hv, if_neg (by omega), if_pos (by simpa using hno 0 (by omega))]
    have := ih (n + 1) f (by omega) (by omega) hend
      (fun j hj => by
        have := hno (j + 1) (by omega)
        rwa [show n + 1 + (j + 1) = n + 1 + 1 + j from by omega] at this)
      (by rwa [show n + 1 + (k + 1) = n + 1 + 1 + k from by omega] at hhit)
    rw [show start + (n + 1) = start + n + 1 from by omega] at this
    rw [this]
    congr 2
    omega

theorem coda_find_nal_header_loop_not_found (mem : List Byte) (start end_ : Nat) :
    ∀ fuel n, end_ < fuel + (start + n) + 1 ∨ end_ ≤ start + n + 1 → 0 < fuel →
      start + n < mem.length → end_ ≤ mem.length →
      (∀ m, n < m → start + m < end_ → scanVal mem start m ≠ 1) →
      coda_find_nal_header_loop fuel mem (scanVal mem start n) (start + n) end_ = some none := by
  intro fuel
  induction fuel with
  | zero => intro n _ h0; omega
  | succ f ih =>
    intro n hfuel _ hidx hend hno
    rw [coda_find_nal_header_loop, List.getElem?_eq_getElem hidx]
    simp only
    have hv : ((scanVal mem start n <<< 8) % 4294967296) ||| (mem[start + n]).val
        = scanVal mem start (n + 1) := by
      rw [scanVal, List.getD_eq_getElem _ _ hidx]
    rw [hv]
    by_cases hge : start + n + 1 ≥ end_
    · rw [if_pos hge]
    · rw [if_neg hge, if_pos (by simpa using hno (n + 1) (by omega) (by omega))]
      have := ih (n + 1) (by omega) (by omega) (by omega) hend
        (fun m hm hlt => hno m (by omega) hlt)
      rw [show start + (n + 1) = start + n + 1 from by omega] at this
      exact this

theorem scanVal_zero_eq_one_iff (mem : List Byte) (m : Nat) (hm : m ≤ mem.length) :
    scanVal mem 0 m = 1 ↔ StartCodeBefore mem m := by
  rw [scanVal_eq_one_iff]
  unfold StartCodeBefore
  constructor
  · rintro ⟨h4, a, b, c, d⟩
    simp only [Nat.zero_add] at a b c d
    rw [List.getD_eq_getElem _ _ (by omega)] at a b c d
    refine ⟨h4, ?_, ?_, ?_, ?_⟩ <;> rw [List.getElem?_eq_getElem (by omega)] <;>
      congr 1 <;> apply Fin.ext
    · exact a
    · exact b
    · exact c
    · exact d
  · rintro ⟨h4, a, b, c, d⟩
    simp only [Nat.zero_add]
    rw [List.getD_eq_getElem?_getD, List.getD_eq_getElem?_getD, List.getD_eq_getElem?_getD,
      List.getD_eq_getElem?_getD, a, b, c, d]
    exact ⟨h4, rfl, rfl, rfl, rfl⟩

/-- C8 (amended): when the scanned range lies inside the buffer,
`coda_find_nal_header` returns the position `p` that immediately follows the
first occurrence of the 4-byte sequence `00 00 00 01`, provided `p` is
strictly before `end`; on `01 02 00 00 00 01 09 00` it returns the position
of the byte `09`. -/
theorem find_nal_header_first_start_code (mem : List Byte) (end_ p : Nat)
    (hend : end_ ≤ mem.length) (hp : p < end_)
    (hcode : StartCodeBefore mem p)
    (hfirst : ∀ q, q < p → ¬ StartCodeBefore mem q) :
    coda_find_nal_header mem 0 end_ = some (some p) ∧
    coda_find_nal_header [0x01, 0x02, 0x00, 0x00, 0x00, 0x01, 0x09, 0x00] 0 8
      = some (some 6) := by
  refine ⟨?_, by decide⟩
  have h4 : 4 ≤ p := hcode.1
  obtain ⟨k, rfl⟩ : ∃ k, p = k + 1 := ⟨p - 1, by omega⟩
  have := coda_find_nal_header_loop_found mem 0 end_ k 0 (end_ - 0 + 1) (by omega) (by omega)
    hend
    (fun j hj hc => by
      rw [scanVal_zero_eq_one_iff mem _ (by omega)] at hc
      exact hfirst _ (by omega) hc)
    (by
      rw [scanVal_zero_eq_one_iff mem _ (by omega), Nat.zero_add, Nat.add_comm 1 k]
      exact hcode)
  unfold coda_find_nal_header
  simp only [Nat.zero_add] at this
  rw [show k + 1 = 1 + k from by omega]
  exact this

theorem find_nal_header_first_start_code_witness :
    coda_find_nal_header sample_sps 0 13 = some (some 4) ∧
    coda_find_nal_header [0x01, 0x02, 0x00, 0x00, 0x00, 0x01, 0x09, 0x00] 0 8
      = some (some 6) :=
  find_nal_header_first_start_code sample_sps 13 4
    (by decide) (by decide) (by decide) (by decide)

/-- C8 (as stated) fails: on `01 02 00 00 01 09 00 00` with `end = 8` the
3-byte sequence `00 00 01` ends before `end`, yet the result is `NULL`, not
the position 5 of the byte `09`; and a start code `00 00 00 01` whose last
byte is the last byte before `end` is not reported either. -/
theorem find_nal_header_three_byte_counterexample :
    coda_find_nal_header [0x01, 0x02, 0x00, 0x00, 0x01, 0x09, 0x00, 0x00] 0 8 = some none ∧
    coda_find_nal_header [0x01, 0x02, 0x00, 0x00, 0x01, 0x09, 0x00, 0x00] 0 8
      ≠ some (some 5) ∧
    coda_find_nal_header [0x00, 0x00, 0x00, 0x01, 0x09] 0 4 = some none := by
  decide

/-! ## Filler NAL failure -/

/-- C11: `coda_h264_filler_nal` returns `-EINVAL` exactly when `size < 6`:
for `size < 6` it returns `-EINVAL` and leaves the buffer unchanged, for
`size ≥ 6` with room for `size` bytes it returns 0, and no defined call with
`size ≥ 6` returns `-EINVAL`. -/
theorem h264_filler_nal_fails_iff (size : Int) (p : List Byte) :
    (size < 6 → coda_h264_filler_nal size p = some (-EINVAL, p)) ∧
    (6 ≤ size → size ≤ p.length → ∃ p1, coda_h264_filler_nal size p = some (0, p1)) ∧
    (∀ ret p1, coda_h264_filler_nal size p = some (ret, p1) → (ret = -EINVAL ↔ size < 6)) := by
  refine ⟨?_, ?_, ?_⟩
  · intro h
    unfold coda_h264_filler_nal
    rw [if_pos h]
  · intro h6 hp
    obtain ⟨n, rfl⟩ : ∃ n : Nat, size = (n : Int) := ⟨size.toNat, by omega⟩
    exact ⟨_, coda_h264_filler_nal_ok n p (by omega) (by omega)⟩
  · intro ret p1 h
    by_cases h6 : size < 6
    · unfold coda_h264_filler_nal at h
      rw [if_pos h6] at h
      simp only [Option.some.injEq, Prod.mk.injEq] at h
      simp [h6, h.1.symm]
    · unfold coda_h264_filler_nal at h
      rw [if_neg h6] at h
      obtain ⟨q0, _, h⟩ := Option.bind_eq_some.1 h
      obtain ⟨q1, _, h⟩ := Option.bind_eq_some.1 h
      obtain ⟨q2, _, h⟩ := Option.bind_eq_some.1 h
      obtain ⟨q3, _, h⟩ := Option.bind_eq_some.1 h
      obtain ⟨q4, _, h⟩ := Option.bind_eq_some.1 h
      obtain ⟨q5, _, h⟩ := Option.bind_eq_some.1 h
      obtain ⟨q6, _, h⟩ := Option.bind_eq_some.1 h
      simp only [pure, Option.some.injEq, Prod.mk.injEq] at h
      have : ret ≠ -EINVAL := by rw [← h.1]; decide
      simp [h6, this]

theorem h264_filler_nal_fails_iff_witness :
    coda_h264_filler_nal 5 [0x01, 0x02] = some (-EINVAL, [0x01, 0x02]) ∧
    ∃ p1, coda_h264_filler_nal 6 [0x01, 0x02, 0x03, 0x04, 0x05, 0x06] = some (0, p1) :=
  ⟨(h264_filler_nal_fails_iff 5 [0x01, 0x02]).1 (by decide),
   (h264_filler_nal_fails_iff 6 [0x01, 0x02, 0x03, 0x04, 0x05, 0x06]).2.1 (by decide)
     (by decide)⟩

/-! ## Signed Exp-Golomb -/

theorem rbsp_write_read_uev (r : Rbsp) (v : Nat) (hv : v < INT_MAX)
    (hfit : r.pos + (2 * (fls (v + 1) - 1) + 1) ≤ 8 * r.buf.length) :
    ∃ r1, rbsp_write_uev r v = some r1 ∧ r1.buf.length = r.buf.length ∧
      r1.pos = r.pos + (2 * (fls (v + 1) - 1) + 1) ∧
      rbsp_read_uev { r1 with pos := r.pos } = some (v, r1) := by
  refine ⟨_, rbsp_write_uev_some r v hv hfit, writeBits_length _ _ _, rfl, ?_⟩
  have hb : BitsAt (writeBits r.buf r.pos (ueBits v)) r.pos (ueBits v) :=
    BitsAt_writeBits _ _ _ (ueBits_le_one v) (by rw [ueBits_length]; exact hfit)
  have := rbsp_read_uev_of_BitsAt
    { buf := writeBits r.buf r.pos (ueBits v), pos := r.pos } v hv hb
  rw [ueBits_length] at this
  exact this

theorem rbsp_read_sev_of_uev (r r1 : Rbsp) (tmp : Nat)
    (h : rbsp_read_uev r = some (tmp, r1)) :
    rbsp_read_sev r =
      some (if tmp % 2 = 1 then (((tmp + 1) / 2 : Nat) : Int) else -((tmp / 2 : Nat) : Int), r1) := by
  unfold rbsp_read_sev
  rw [h]
  simp only [Nat.and_one_is_mod]
  by_cases hodd : tmp % 2 = 1
  · rw [if_pos (by omega), if_pos hodd]
  · rw [if_neg (by omega), if_neg hodd]

theorem se_code_decodes (v : Int) :
    (if se_code v % 2 = 1 then (((se_code v + 1) / 2 : Nat) : Int)
      else -((se_code v / 2 : Nat) : Int)) = v := by
  unfold se_code
  by_cases hv : 0 < v
  · rw [if_pos hv]
    have : (2 * v.toNat - 1) % 2 = 1 := by omega
    rw [if_pos this]
    omega
  · rw [if_neg hv]
    have : ¬ (2 * v.natAbs) % 2 = 1 := by omega
    rw [if_neg this]
    omega

/-- C13 (amended): for every `v` in `[-1000, 1000]` and a cursor with room,
writing the code number `tmp = 2v - 1` for `v > 0` and `tmp = 2|v|` for
`v ≤ 0` with `rbsp_write_uev` and reading it back with `rbsp_read_sev`
returns `v`; `v = 0` gives `tmp = 0`, `v = 1` gives `tmp = 1` and `v = -1`
gives `tmp = 2`. -/
theorem sev_write_then_read (v : Int) (r : Rbsp) (hlo : -1000 ≤ v) (hhi : v ≤ 1000)
    (hfit : r.pos + 2 * Nat.log2 (se_code v + 1) + 1 ≤ 8 * r.buf.length) :
    (∃ r1, rbsp_write_uev r (se_code v) = some r1 ∧
      rbsp_read_sev { r1 with pos := r.pos } = some (v, r1)) ∧
    se_code 0 = 0 ∧ se_code 1 = 1 ∧ se_code (-1) = 2 := by
  refine ⟨?_, by decide, by decide, by decide⟩
  have hc : se_code v ≤ 2000 := by unfold se_code; split_ifs <;> omega
  have hmax : se_code v < INT_MAX := by unfold INT_MAX; omega
  have hk := fls_eq_log2 (se_code v + 1) (by omega) (by omega)
  obtain ⟨r1, hw, _, _, hr⟩ := rbsp_write_read_uev r (se_code v) hmax (by rw [hk]; omega)
  refine ⟨r1, hw, ?_⟩
  rw [rbsp_read_sev_of_uev _ _ _ hr, se_code_decodes]

theorem sev_write_then_read_witness :
    (∃ r1, rbsp_write_uev { buf := [0xff, 0xff], pos := 2 } (se_code (-3)) = some r1 ∧
      rbsp_read_sev { r1 with pos := 2 } = some (-3, r1)) ∧
    se_code 0 = 0 ∧ se_code 1 = 1 ∧ se_code (-1) = 2 :=
  sev_write_then_read (-3) { buf := [0xff, 0xff], pos := 2 } (by decide) (by decide)
    (by simp [se_code, Nat.log2])

/-- C13 (as stated) fails: the spec's `write_se` sends `v = 1` to the code
number 2, which `rbsp_read_sev` decodes as `-1`. -/
theorem sev_spec_mapping_counterexample :
    (rbsp_write_sev { buf := [0x00], pos := 0 } 1).bind
        (fun r1 => rbsp_read_sev { r1 with pos := 0 })
      = some (-1, { buf := [0x60], pos := 3 }) := by
  decide

/-- C17: where `rbsp_read_uev` returns `tmp` (in particular `tmp < 2^30`),
`rbsp_read_sev` at the same cursor returns `(tmp + 1) / 2` for odd `tmp` and `-(tmp / 2)` for even
`tmp`, with the same cursor afterwards; the code numbers 0, 1, 2, 3, 4
(codes `1`, `010`, `011`, `00100`, `00101`) decode to 0, +1, -1, +2, -2. -/
theorem read_sev_of_read_uev (r r1 : Rbsp) (tmp : Nat)
    (h : rbsp_read_uev r = some (tmp, r1)) :
    rbsp_read_sev r =
      some (if tmp % 2 = 1 then (((tmp + 1) / 2 : Nat) : Int) else -((tmp / 2 : Nat) : Int),
        r1) ∧
    rbsp_read_sev { buf := [0x80], pos := 0 } = some (0, { buf := [0x80], pos := 1 }) ∧
    rbsp_read_sev { buf := [0x40], pos := 0 } = some (1, { buf := [0x40], pos := 3 }) ∧
    rbsp_read_sev { buf := [0x60], pos := 0 } = some (-1, { buf := [0x60], pos := 3 }) ∧
    rbsp_read_sev { buf := [0x20], pos := 0 } = some (2, { buf := [0x20], pos := 5 }) ∧
    rbsp_read_sev { buf := [0x28], pos := 0 } = some (-2, { buf := [0x28], pos := 5 }) := by
  refine ⟨?_, by decide, by decide, by decide, by decide, by decide⟩
  unfold rbsp_read_sev
  rw [h]
  simp only [Nat.and_one_is_mod]
  by_cases hodd : tmp % 2 = 1
  · rw [if_pos (by omega), if_pos hodd]
  · rw [if_neg (by omega), if_neg hodd]

theorem read_sev_of_read_uev_witness :
    rbsp_read_sev { buf := [0x28], pos := 0 } =
      some (if 4 % 2 = 1 then (((4 + 1) / 2 : Nat) : Int) else -((4 / 2 : Nat) : Int),
        { buf := [0x28], pos := 5 }) ∧
    rbsp_read_sev { buf := [0x80], pos := 0 } = some (0, { buf := [0x80], pos := 1 }) ∧
    rbsp_read_sev { buf := [0x40], pos := 0 } = some (1, { buf := [0x40], pos := 3 }) ∧
    rbsp_read_sev { buf := [0x60], pos := 0 } = some (-1, { buf := [0x60], pos := 3 }) ∧
    rbsp_read_sev { buf := [0x20], pos := 0 } = some (2, { buf := [0x20], pos := 5 }) ∧
    rbsp_read_sev { buf := [0x28], pos := 0 } = some (-2, { buf := [0x28], pos := 5 }) :=
  read_sev_of_read_uev { buf := [0x28], pos := 0 } { buf := [0x28], pos := 5 } 4 (by decide)

/-! ## Size and cropping arithmetic of `coda_sps_fixup` -/

theorem crop_100 : crop_right 100 = 6 ∧ crop_bottom 100 1 = 6 ∧ ue_len 6 = 5 := by
  refine ⟨by decide, by decide, ?_⟩
  simp [ue_len, Nat.log2]

/-- C14: for a Baseline SPS (profile_idc = 66) without VUI and with
frame_mbs_only_flag = 1 whose input size is `5 + ceil((splice + 3) / 8)`, the
size of an SPS that ends with frame_cropping_flag = 0, the VUI flag and the
stop bit, `coda_sps_fixup` with width = height = 100 stores a size strictly
greater than the input size (given room for the 15 rewritten bits). -/
theorem sps_fixup_size_grows (buf : List Byte) (size : Int) (h : SpsHeader) (f : SpsFields)
    (hhdr : coda_sps_fixup_header buf = some h)
    (hprof : h.profile_idc = 66)
    (hfld : coda_sps_fixup_fields h.sps = some f)
    (hvui : f.vui_parameters_present_flag = 0)
    (hmbs : f.frame_mbs_only_flag = 1)
    (hsize : size = ((5 + (f.pos + 3 + 7) / 8 : Nat) : Int))
    (hfit : f.pos + 15 ≤ 8 * (buf.length - 5)) :
    ∃ buf1 size1, coda_sps_fixup 100 100 buf size = some (buf1, size1) ∧ size < size1 := by
  obtain ⟨e1, e2, e3⟩ := crop_100
  have hfit1 : f.pos + 5 + ue_len (crop_right 100)
      + ue_len (crop_bottom 100 f.frame_mbs_only_flag) ≤ 8 * (buf.length - 5) := by
    rw [hmbs, e1, e2, e3]; omega
  have hp : ¬ unsupported_profile h.profile_idc := by rw [hprof]; decide
  refine ⟨_, _, coda_sps_fixup_rewrites 100 100 buf size h f hhdr hp hfld hvui hfit1, ?_⟩
  rw [hsize, hmbs, e1, e2, e3]
  unfold DIV_ROUND_UP
  omega

theorem sps_fixup_size_grows_witness :
    ∃ buf1 size1, coda_sps_fixup 100 100 sample_sps 11 = some (buf1, size1) ∧ 11 < size1 :=
  sps_fixup_size_grows sample_sps 11 sample_header sample_fields
    (by decide) (by decide) (by decide) (by decide) (by decide) (by decide) (by decide)

/-- C15 (amended): for width, height > 0 the cropping rectangle recovers the
requested dimensions rounded up to the crop unit: `round_up(width,16) -
2*crop_right = round_up(width,2)`, `round_up(height,16) - 2*crop_bottom =
round_up(height,2)` for frame_mbs_only_flag = 1 and `round_up(height,16) -
4*crop_bottom = round_up(height,4)` for 0; these are the requested width and
height exactly when width is even and height is a multiple of 2 (resp. 4). -/
theorem crop_recovers_dimensions (width height : Nat) (hw : 0 < width) (hh : 0 < height) :
    round_up width 16 - 2 * crop_right width = round_up width 2 ∧
    round_up height 16 - 2 * crop_bottom height 1 = round_up height 2 ∧
    round_up height 16 - 4 * crop_bottom height 0 = round_up height 4 ∧
    (round_up width 16 - 2 * crop_right width = width ↔ width % 2 = 0) ∧
    (round_up height 16 - 2 * crop_bottom height 1 = height ↔ height % 2 = 0) ∧
    (round_up height 16 - 4 * crop_bottom height 0 = height ↔ height % 4 = 0) := by
  unfold crop_right crop_bottom round_up
  simp only [if_pos (show (1 : Nat) ≠ 0 by decide), if_neg (show ¬ (0 : Nat) ≠ 0 by decide)]
  refine ⟨?_, ?_, ?_, ?_, ?_, ?_⟩ <;> omega

theorem crop_recovers_dimensions_witness :
    round_up 100 16 - 2 * crop_right 100 = round_up 100 2 ∧
    round_up 100 16 - 2 * crop_bottom 100 1 = round_up 100 2 ∧
    round_up 100 16 - 4 * crop_bottom 100 0 = round_up 100 4 ∧
    (round_up 100 16 - 2 * crop_right 100 = 100 ↔ 100 % 2 = 0) ∧
    (round_up 100 16 - 2 * crop_bottom 100 1 = 100 ↔ 100 % 2 = 0) ∧
    (round_up 100 16 - 4 * crop_bottom 100 0 = 100 ↔ 100 % 4 = 0) :=
  crop_recovers_dimensions 100 100 (by decide) (by decide)

/-- C15 (as stated) fails for an odd width: for width 101 the macroblock
width 112 minus twice the written crop_right 5 is 102, not 101; likewise for
height 101, and for height 102 with frame_mbs_only_flag = 0. -/
theorem crop_odd_width_counterexample :
    round_up 101 16 - 2 * crop_right 101 = 102 ∧
    round_up 101 16 - 2 * crop_right 101 ≠ 101 ∧
    round_up 101 16 - 2 * crop_bottom 101 1 ≠ 101 ∧
    round_up 102 16 - 4 * crop_bottom 102 0 ≠ 102 := by
  decide

/-! ## Profile and level tables -/

/-- C16: `coda_h264_profile` returns `-EINVAL` exactly outside {66,77,88,100}
and maps 66, 77, 88, 100 to Baseline, Main, Extended, High; `coda_h264_level`
returns `-EINVAL` exactly outside {9,10,11,12,13,20,21,22,30,31,32,40,41},
maps 9 to level 1b and is injective on these thirteen values. -/
theorem h264_profile_level_tables :
    (∀ p : Int, coda_h264_profile p = .error (-EINVAL) ↔ p ∉ known_profiles) ∧
    coda_h264_profile 66 = .ok .BASELINE ∧ coda_h264_profile 77 = .ok .MAIN ∧
    coda_h264_profile 88 = .ok .EXTENDED ∧ coda_h264_profile 100 = .ok .HIGH ∧
    (∀ l : Int, coda_h264_level l = .error (-EINVAL) ↔ l ∉ known_levels) ∧
    coda_h264_level 9 = .ok .L1B ∧
    (∀ a ∈ known_levels, ∀ b ∈ known_levels, coda_h264_level a = coda_h264_level b → a = b) ∧
    (∀ a ∈ known_profiles, ∀ b ∈ known_profiles,
      coda_h264_profile a = coda_h264_profile b → a = b) := by
  refine ⟨?_, by decide, by decide, by decide, by decide, ?_, by decide, by decide, by decide⟩
  · intro p
    constructor
    · intro h hm
      revert h
      simp only [known_profiles, List.mem_cons, List.mem_singleton, List.not_mem_nil,
        or_false] at hm
      rcases hm with rfl | rfl | rfl | rfl <;> decide
    · intro hm
      simp only [known_profiles, List.mem_cons, List.mem_singleton, List.not_mem_nil,
        or_false, not_or] at hm
      obtain ⟨h1, h2, h3, h4⟩ := hm
      unfold coda_h264_profile
      rw [if_neg h1, if_neg h2, if_neg h3, if_neg h4]
  · intro l
    constructor
    · intro h hm
      revert h
      simp only [known_levels, List.mem_cons, List.mem_singleton, List.not_mem_nil,
        or_false] at hm
      rcases hm with rfl | rfl | rfl | rfl | rfl | rfl | rfl | rfl | rfl | rfl | rfl | rfl | rfl <;>
        decide
    · intro hm
      simp only [known_levels, List.mem_cons, List.mem_singleton, List.not_mem_nil,
        or_false, not_or] at hm
      obtain ⟨h1, h2, h3, h4, h5, h6, h7, h8, h9, h10, h11, h12, h13⟩ := hm
      unfold coda_h264_level
      rw [if_neg h2, if_neg h1, if_neg h3, if_neg h4, if_neg h5, if_neg h6, if_neg h7,
        if_neg h8, if_neg h9, if_neg h10, if_neg h11, if_neg h12, if_neg h13]

theorem h264_profile_level_tables_witness :
    coda_h264_profile 110 = .error (-EINVAL) ∧ coda_h264_level 42 = .error (-EINVAL) ∧
    ((9 : Int) = 9) :=
  ⟨(h264_profile_level_tables.1 110).2 (by decide),
   (h264_profile_level_tables.2.2.2.2.2.1 42).2 (by decide),
   h264_profile_level_tables.2.2.2.2.2.2.2.1 9 (by decide) 9 (by decide) rfl⟩

/-! ## Big-endian bit fields -/

theorem bitsVal_lt (bs : List Nat) (hb : ∀ b ∈ bs, b ≤ 1) : bitsVal bs < 2 ^ bs.length := by
  induction bs with
  | nil => simp [bitsVal]
  | cons b bs ih =>
    have h1 := ih (fun x hx => hb x (List.mem_cons_of_mem _ hx))
    have h2 := hb b (List.mem_cons_self _ _)
    rw [bitsVal, Nat.shiftLeft_eq, Nat.mul_comm, ← Nat.mul_add_lt_is_or h1, List.length_cons,
      pow_succ]
    have : 2 ^ bs.length * b ≤ 2 ^ bs.length * 1 := Nat.mul_le_mul_left _ h2
    omega

theorem bitsVal_cons (b : Nat) (bs : List Nat) (hb : ∀ x ∈ bs, x ≤ 1) :
    bitsVal (b :: bs) = b * 2 ^ bs.length + bitsVal bs := by
  rw [bitsVal, Nat.shiftLeft_eq, Nat.mul_comm, ← Nat.mul_add_lt_is_or (bitsVal_lt bs hb),
    Nat.mul_comm]

theorem bitsVal_eq_sum (bs : List Nat) (hb : ∀ b ∈ bs, b ≤ 1) :
    bitsVal bs = ∑ i in Finset.range bs.length, bs.getD i 0 * 2 ^ (bs.length - 1 - i) := by
  induction bs with
  | nil => simp [bitsVal]
  | cons b bs ih =>
    have hb1 : ∀ x ∈ bs, x ≤ 1 := fun x hx => hb x (List.mem_cons_of_mem _ hx)
    rw [bitsVal_cons b bs hb1, ih hb1, List.length_cons, Finset.sum_range_succ']
    simp only [List.getD_cons_succ, List.getD_cons_zero, Nat.add_sub_cancel, Nat.sub_zero]
    rw [Nat.add_comm]
    congr 1
    apply Finset.sum_congr rfl
    intro i hi
    rw [Finset.mem_range] at hi
    congr 2
    omega

theorem bitsFrom_length (buf : List Byte) (p n : Nat) : (bitsFrom buf p n).length = n := by
  induction n generalizing p with
  | zero => rfl
  | succ n ih => simp [bitsFrom, ih]

theorem bitsFrom_getD (buf : List Byte) (p n i : Nat) (hi : i < n) :
    (bitsFrom buf p n).getD i 0 = (bitAt buf (p + i)).getD 0 := by
  induction n generalizing p i with
  | zero => omega
  | succ n ih =>
    cases i with
    | zero => simp [bitsFrom]
    | succ j =>
      rw [bitsFrom, List.getD_cons_succ, ih (p + 1) j (by omega)]
      congr 2
      omega

theorem bitsFrom_le_one (buf : List Byte) (p n : Nat) : ∀ b ∈ bitsFrom buf p n, b ≤ 1 := by
  induction n generalizing p with
  | zero => simp [bitsFrom]
  | succ n ih =>
    intro b hb
    simp only [bitsFrom, List.mem_cons] at hb
    rcases hb with rfl | hb
    · cases h : bitAt buf p with
      | none => simp
      | some x => simpa using bitAt_le_one _ _ _ h
    · exact ih _ b hb

theorem BitsAt_bitsFrom (buf : List Byte) (p n : Nat) (h : p + n ≤ 8 * buf.length) :
    BitsAt buf p (bitsFrom buf p n) := by
  induction n generalizing p with
  | zero => trivial
  | succ n ih =>
    refine ⟨?_, ih (p + 1) (by omega)⟩
    have : (bitAt buf p).isSome := (bitAt_isSome_iff _ _).2 (by omega)
    obtain ⟨x, hx⟩ := Option.isSome_iff_exists.1 this
    rw [hx]
    rfl

theorem rbsp_read_bits_sum (r : Rbsp) (n : Nat) (hn : n ≤ 31)
    (hfit : r.pos + n ≤ 8 * r.buf.length) :
    rbsp_read_bits r n =
      some (∑ i in Finset.range n, (bitAt r.buf (r.pos + i)).getD 0 * 2 ^ (n - 1 - i),
        { r with pos := r.pos + n }) := by
  unfold rbsp_read_bits
  rw [if_neg (by omega)]
  have := rbsp_read_bits_loop_of_BitsAt r (bitsFrom r.buf r.pos n) 0
    (BitsAt_bitsFrom _ _ _ hfit)
  rw [bitsFrom_length, Nat.zero_or, bitsVal_eq_sum _ (bitsFrom_le_one _ _ _),
    bitsFrom_length] at this
  rw [this]
  congr 2
  apply Finset.sum_congr rfl
  intro i hi
  rw [Finset.mem_range] at hi
  rw [bitsFrom_getD _ _ _ _ hi]

/-- C18: for `n ≤ 31` and a cursor with `n` bits left in the buffer,
`rbsp_read_bits` returns the sum over `i < n` of `bit (pos + i) * 2^(n-1-i)`
and advances the cursor by `n`; `rbsp_write_bits` of `value` advances the
cursor by `n`, and `rbsp_read_bits` from the same position afterwards returns
`value mod 2^n`. -/
theorem read_write_bits_big_endian (n : Nat) (r : Rbsp) (value : Nat) (hn : n ≤ 31)
    (hfit : r.pos + n ≤ 8 * r.buf.length) :
    rbsp_read_bits r n =
      some (∑ i in Finset.range n, (bitAt r.buf (r.pos + i)).getD 0 * 2 ^ (n - 1 - i),
        { r with pos := r.pos + n }) ∧
    ∃ r1, rbsp_write_bits r n value = some r1 ∧ r1.pos = r.pos + n ∧
      rbsp_read_bits { r1 with pos := r.pos } n = some (value % 2 ^ n, r1) := by
  refine ⟨rbsp_read_bits_sum r n hn hfit, ?_⟩
  have hw : rbsp_write_bits r n value =
      some { buf := writeBits r.buf r.pos (bitsOf n value), pos := r.pos + n } := by
    rw [rbsp_write_bits_eq, rbsp_put_some _ _ (by rw [bitsOf_length]; exact hfit),
      bitsOf_length]
  refine ⟨_, hw, rfl, ?_⟩
  have hb : BitsAt (writeBits r.buf r.pos (bitsOf n value)) r.pos (bitsOf n value) :=
    BitsAt_writeBits _ _ _ (bitsOf_le_one n value) (by rw [bitsOf_length]; exact hfit)
  exact rbsp_read_bits_of_BitsAt
    { buf := writeBits r.buf r.pos (bitsOf n value), pos := r.pos } n value hn hb

theorem read_write_bits_big_endian_witness :
    rbsp_read_bits { buf := [0x12, 0x34], pos := 3 } 8 =
      some (∑ i in Finset.range 8,
          (bitAt [0x12, 0x34] (3 + i)).getD 0 * 2 ^ (8 - 1 - i),
        { buf := [0x12, 0x34], pos := 3 + 8 }) ∧
    ∃ r1, rbsp_write_bits { buf := [0x12, 0x34], pos := 3 } 8 0x1a5 = some r1 ∧
      r1.pos = 3 + 8 ∧
      rbsp_read_bits { r1 with pos := 3 } 8 = some (0x1a5 % 2 ^ 8, r1) :=
  read_write_bits_big_endian 8 { buf := [0x12, 0x34], pos := 3 } 0x1a5 (by decide) (by decide)

/-! ## Start-code scan from any offset -/

theorem scanVal_eq_one_iff_code (mem : List Byte) (s m : Nat) (hm : s + m ≤ mem.length) :
    scanVal mem s m = 1 ↔ 4 ≤ m ∧ StartCodeBefore mem (s + m) := by
  rw [scanVal_eq_one_iff]
  unfold StartCodeBefore
  constructor
  · rintro ⟨h4, a, b, c, d⟩
    rw [List.getD_eq_getElem _ _ (by omega)] at a b c d
    have e4 : s + m - 4 = s + (m - 4) := by omega
    have e3 : s + m - 3 = s + (m - 3) := by omega
    have e2 : s + m - 2 = s + (m - 2) := by omega
    have e1 : s + m - 1 = s + (m - 1) := by omega
    rw [e4, e3, e2, e1]
    refine ⟨h4, by omega, ?_, ?_, ?_, ?_⟩ <;> rw [List.getElem?_eq_getElem (by omega)] <;>
      congr 1 <;> apply Fin.ext
    · exact a
    · exact b
    · exact c
    · exact d
  · rintro ⟨h4, _, a, b, c, d⟩
    have e4 : s + m - 4 = s + (m - 4) := by omega
    have e3 : s + m - 3 = s + (m - 3) := by omega
    have e2 : s + m - 2 = s + (m - 2) := by omega
    have e1 : s + m - 1 = s + (m - 1) := by omega
    rw [e4] at a
    rw [e3] at b
    rw [e2] at c
    rw [e1] at d
    rw [List.getD_eq_getElem?_getD, List.getD_eq_getElem?_getD, List.getD_eq_getElem?_getD,
      List.getD_eq_getElem?_getD, a, b, c, d]
    exact ⟨h4, rfl, rfl, rfl, rfl⟩

theorem coda_find_nal_header_found (mem : List Byte) (s end_ p : Nat)
    (hend : end_ ≤ mem.length) (h : FirstStartCode mem s end_ p) :
    coda_find_nal_header mem s end_ = some (some p) := by
  obtain ⟨h4, hp, hcode, hfirst⟩ := h
  obtain ⟨k, rfl⟩ : ∃ k, p = s + 0 + 1 + k := ⟨p - s - 1, by omega⟩
  have := coda_find_nal_header_loop_found mem s end_ k 0 (end_ - s + 1) (by omega) (by omega)
    hend
    (fun j hj hc => by
      rw [scanVal_eq_one_iff_code mem _ _ (by omega)] at hc
      exact hfirst _ (by omega) (by omega) hc.2)
    (by
      rw [scanVal_eq_one_iff_code mem _ _ (by omega)]
      refine ⟨by omega, ?_⟩
      rw [show s + (0 + 1 + k) = s + 0 + 1 + k from by omega]
      exact hcode)
  unfold coda_find_nal_header
  exact this

theorem coda_find_nal_header_none (mem : List Byte) (s end_ : Nat)
    (hs : s < mem.length) (hend : end_ ≤ mem.length)
    (hno : ∀ q, s + 4 ≤ q → q < end_ → ¬ StartCodeBefore mem q) :
    coda_find_nal_header mem s end_ = some none := by
  have := coda_find_nal_header_loop_not_found mem s end_ (end_ - s + 1) 0 (by omega)
    (by omega) (by omega) hend
    (fun m _ hlt hc => by
      rw [scanVal_eq_one_iff_code mem _ _ (by omega)] at hc
      exact hno _ (by omega) hlt hc.2)
  unfold coda_find_nal_header
  exact this

theorem coda_find_nal_header_cases (mem : List Byte) (s end_ : Nat)
    (hs : s < mem.length) (hend : end_ ≤ mem.length) :
    (∃ p, FirstStartCode mem s end_ p ∧ coda_find_nal_header mem s end_ = some (some p)) ∨
    ((∀ q, s + 4 ≤ q → q < end_ → ¬ StartCodeBefore mem q) ∧
      coda_find_nal_header mem s end_ = some none) := by
  by_cases hex : ∃ p, s + 4 ≤ p ∧ p < end_ ∧ StartCodeBefore mem p
  · left
    obtain ⟨h4, hp, hcode⟩ := Nat.find_spec hex
    have hfirst : FirstStartCode mem s end_ (Nat.find hex) :=
      ⟨h4, hp, hcode, fun q hq4 hq hc => Nat.find_min hex hq ⟨hq4, by omega, hc⟩⟩
    exact ⟨_, hfirst, coda_find_nal_header_found mem s end_ _ hend hfirst⟩
  · right
    have hno : ∀ q, s + 4 ≤ q → q < end_ → ¬ StartCodeBefore mem q :=
      fun q h4 hq hc => hex ⟨q, h4, hq, hc⟩
    exact ⟨hno, coda_find_nal_header_none mem s end_ hs hend hno⟩

theorem FirstStartCode_unique (mem : List Byte) (s end_ p q : Nat)
    (hp : FirstStartCode mem s end_ p) (hq : FirstStartCode mem s end_ q) : p = q := by
  obtain ⟨p4, pe, pc, pf⟩ := hp
  obtain ⟨q4, qe, qc, qf⟩ := hq
  by_contra hne
  rcases Nat.lt_or_gt_of_ne hne with h | h
  · exact qf p p4 h pc
  · exact pf q q4 h qc

/-- C20: for a buffer of at least one byte scanned from index 0 with `end`
inside the buffer, `coda_find_nal_header` returns position `p` if and only if
`p` is the smallest index with `4 ≤ p < end` whose four preceding bytes are
`00 00 00 01`, and returns `NULL` if and only if there is no such index; a
first start code that ends right at `end` is not reported, nor is anything
reported in a buffer without a `00 00 01` sequence. -/
theorem find_nal_header_exact (mem : List Byte) (end_ : Nat)
    (h1 : 1 ≤ mem.length) (hend : end_ ≤ mem.length) :
    (∀ p, coda_find_nal_header mem 0 end_ = some (some p) ↔
      (4 ≤ p ∧ p < end_ ∧ StartCodeBefore mem p ∧
        ∀ q, 4 ≤ q → q < p → ¬ StartCodeBefore mem q)) ∧
    (coda_find_nal_header mem 0 end_ = some none ↔
      ∀ p, 4 ≤ p → p < end_ → ¬ StartCodeBefore mem p) ∧
    ((StartCodeBefore mem end_ ∧ ∀ q, q < end_ → ¬ StartCodeBefore mem q) →
      coda_find_nal_header mem 0 end_ = some none) ∧
    ((∀ i, ¬ (mem[i]? = some (0x00 : Byte) ∧ mem[i + 1]? = some (0x00 : Byte) ∧
        mem[i + 2]? = some (0x01 : Byte))) →
      coda_find_nal_header mem 0 end_ = some none) := by
  have hcases := coda_find_nal_header_cases mem 0 end_ (by omega) hend
  simp only [FirstStartCode, Nat.zero_add] at hcases
  refine ⟨?_, ?_, ?_, ?_⟩
  · intro p
    constructor
    · intro hp
      rcases hcases with ⟨p0, hfirst, hres⟩ | ⟨_, hres⟩
      · rw [hres] at hp
        simp only [Option.some.injEq] at hp
        subst hp
        exact hfirst
      · rw [hres] at hp
        simp at hp
    · intro hp
      have := coda_find_nal_header_found mem 0 end_ p hend
      simp only [FirstStartCode, Nat.zero_add] at this
      exact this hp
  · constructor
    · intro hnone
      rcases hcases with ⟨p0, _, hres⟩ | ⟨hno, _⟩
      · rw [hres] at hnone
        simp at hnone
      · exact hno
    · intro hno
      have := coda_find_nal_header_none mem 0 end_ (by omega) hend
      simp only [Nat.zero_add] at this
      exact this hno
  · rintro ⟨_, hno⟩
    have := coda_find_nal_header_none mem 0 end_ (by omega) hend
    simp only [Nat.zero_add] at this
    exact this (fun q _ hq => hno q hq)
  · intro hno
    have := coda_find_nal_header_none mem 0 end_ (by omega) hend
    simp only [Nat.zero_add] at this
    apply this
    intro q h4 _ hc
    obtain ⟨_, _, b, c, d⟩ := hc
    apply hno (q - 3)
    have e2 : q - 3 + 1 = q - 2 := by omega
    have e1 : q - 3 + 2 = q - 1 := by omega
    rw [e2, e1]
    exact ⟨b, c, d⟩

theorem find_nal_header_exact_witness :
    (∀ p, coda_find_nal_header sample_code_at_end 0 4 = some (some p) ↔
      (4 ≤ p ∧ p < 4 ∧ StartCodeBefore sample_code_at_end p ∧
        ∀ q, 4 ≤ q → q < p → ¬ StartCodeBefore sample_code_at_end q)) ∧
    (coda_find_nal_header sample_code_at_end 0 4 = some none ↔
      ∀ p, 4 ≤ p → p < 4 → ¬ StartCodeBefore sample_code_at_end p) ∧
    ((StartCodeBefore sample_code_at_end 4 ∧
        ∀ q, q < 4 → ¬ StartCodeBefore sample_code_at_end q) →
      coda_find_nal_header sample_code_at_end 0 4 = some none) ∧
    ((∀ i, ¬ (sample_code_at_end[i]? = some (0x00 : Byte) ∧
        sample_code_at_end[i + 1]? = some (0x00 : Byte) ∧
        sample_code_at_end[i + 2]? = some (0x01 : Byte))) →
      coda_find_nal_header sample_code_at_end 0 4 = some none) :=
  find_nal_header_exact sample_code_at_end 4 (by decide) (by decide)

/-! ## SPS search of `coda_sps_parse_profile` -/

theorem coda_sps_parse_profile_loop_found (mem : List Byte) (end_ s p : Nat)
    (hend : end_ ≤ mem.length) (h : SpsHeaderAt mem end_ s p) :
    ∀ fuel, end_ < fuel + s → coda_sps_parse_profile_loop fuel mem s end_ = some (some (p + 1)) := by
  induction h with
  | @found s p b hfirst hb ht =>
    intro fuel hfuel
    obtain ⟨f, rfl⟩ : ∃ f, fuel = f + 1 := ⟨fuel - 1, by have := hfirst.1; have := hfirst.2.1; omega⟩
    rw [coda_sps_parse_profile_loop, coda_find_nal_header_found mem s end_ p hend hfirst]
    simp only [hb]
    rw [if_neg (by simpa using ht)]
  | @skip s q p b hfirst hb ht _ ih =>
    intro fuel hfuel
    obtain ⟨f, rfl⟩ : ∃ f, fuel = f + 1 := ⟨fuel - 1, by have := hfirst.1; have := hfirst.2.1; omega⟩
    rw [coda_sps_parse_profile_loop, coda_find_nal_header_found mem s end_ q hend hfirst]
    simp only [hb]
    rw [if_pos ht]
    exact ih f (by have := hfirst.1; omega)

theorem coda_sps_parse_profile_loop_none (mem : List Byte) (end_ : Nat)
    (hend : end_ < mem.length) :
    ∀ fuel s, end_ < fuel + s → s ≤ end_ → (¬ ∃ p, SpsHeaderAt mem end_ s p) →
      coda_sps_parse_profile_loop fuel mem s end_ = some none := by
  intro fuel
  induction fuel with
  | zero => intro s h1 h2; omega
  | succ f ih =>
    intro s hfuel hs hno
    rw [coda_sps_parse_profile_loop]
    rcases coda_find_nal_header_cases mem s end_ (by omega) (by omega) with
      ⟨q, hfirst, hres⟩ | ⟨_, hres⟩
    · rw [hres]
      have hq : q < mem.length := by have := hfirst.2.1; omega
      simp only [List.getElem?_eq_getElem hq]
      by_cases ht : (mem[q]).val &&& 0x1f = 0x7
      · exact absurd ⟨q, SpsHeaderAt.found hfirst (List.getElem?_eq_getElem hq) ht⟩ hno
      · rw [if_pos ht]
        apply ih (q + 1) (by have := hfirst.1; omega) (by have := hfirst.2.1; omega)
        rintro ⟨p, hp⟩
        exact hno ⟨p, SpsHeaderAt.skip hfirst (List.getElem?_eq_getElem hq) ht hp⟩
    · rw [hres]

theorem SpsHeaderAt_lt (mem : List Byte) (end_ s p : Nat) (h : SpsHeaderAt mem end_ s p) :
    s + 4 ≤ p ∧ p < end_ := by
  induction h with
  | found hfirst _ _ => exact ⟨hfirst.1, hfirst.2.1⟩
  | skip hfirst _ _ _ ih => exact ⟨by have := hfirst.1; omega, ih.2⟩

/-- C12 (amended): when the plane extends at least 3 bytes past the payload,
`coda_sps_parse_profile` succeeds exactly when its successive scans for the
4-byte start code `00 00 00 01`, each starting after the NAL header byte the
previous scan found and requiring the header byte before the payload end,
reach a header byte whose low 5 bits are 7; it then stores the byte after
that header byte as profile_idc and the byte two positions later as
level_idc; otherwise it returns `-EINVAL` and leaves both untouched. -/
theorem sps_parse_profile_spec (ctx : CodaParams) (mem : List Byte) (payload : Nat)
    (hroom : payload + 3 ≤ mem.length) :
    (∀ p, SpsHeaderAt mem payload 0 p →
      ∃ a b, mem[p + 1]? = some a ∧ mem[p + 3]? = some b ∧
        coda_sps_parse_profile ctx mem payload =
          some (0, { h264_profile_idc := a.val, h264_level_idc := b.val })) ∧
    ((¬ ∃ p, SpsHeaderAt mem payload 0 p) →
      coda_sps_parse_profile ctx mem payload = some (-EINVAL, ctx)) := by
  constructor
  · intro p hp
    have hlt := (SpsHeaderAt_lt mem payload 0 p hp).2
    have h1 : p + 1 < mem.length := by omega
    have h3 : p + 3 < mem.length := by omega
    refine ⟨mem[p + 1], mem[p + 3], List.getElem?_eq_getElem h1, List.getElem?_eq_getElem h3, ?_⟩
    unfold coda_sps_parse_profile
    rw [coda_sps_parse_profile_loop_found mem payload 0 p (by omega) hp (payload + 1) (by omega)]
    simp only [List.getElem?_eq_getElem h1,
      show p + 1 + 2 = p + 3 from rfl, List.getElem?_eq_getElem h3]
  · intro hno
    unfold coda_sps_parse_profile
    rw [coda_sps_parse_profile_loop_none mem payload (by omega) (payload + 1) 0 (by omega)
      (by omega) hno]

theorem sample_stream_sps : SpsHeaderAt sample_stream 14 0 10 :=
  SpsHeaderAt.skip (q := 4) (b := 0x09) (by decide) (by decide) (by decide)
    (SpsHeaderAt.found (b := 0x67) (by decide) (by decide) (by decide))

theorem sps_parse_profile_spec_witness :
    (∃ a b, sample_stream[10 + 1]? = some a ∧ sample_stream[10 + 3]? = some b ∧
      coda_sps_parse_profile { h264_profile_idc := 0, h264_level_idc := 0 } sample_stream 14 =
        some (0, { h264_profile_idc := a.val, h264_level_idc := b.val })) :=
  (sps_parse_profile_spec { h264_profile_idc := 0, h264_level_idc := 0 } sample_stream 14
    (by decide)).1 10 sample_stream_sps

/-- C12 (as stated) fails: a payload with the 3-byte start code `00 00 01`
followed by an SPS header byte `67` is answered with `-EINVAL`, and so is a
payload in which `00 00 00 01 67` begins with the header byte `00` of the
NAL unit before it. -/
theorem sps_parse_profile_counterexample :
    coda_sps_parse_profile { h264_profile_idc := 1, h264_level_idc := 2 }
        [0x00, 0x00, 0x01, 0x67, 0x42, 0x00, 0x1e, 0x00, 0x00, 0x00] 7
      = some (-EINVAL, { h264_profile_idc := 1, h264_level_idc := 2 }) ∧
    coda_sps_parse_profile { h264_profile_idc := 1, h264_level_idc := 2 }
        [0x00, 0x00, 0x00, 0x01, 0x00, 0x00, 0x00, 0x01, 0x67, 0x42, 0x00, 0x1e,
         0x00, 0x00, 0x00] 12
      = some (-EINVAL, { h264_profile_idc := 1, h264_level_idc := 2 }) := by
  decide

/-! ## Reads depend only on the bits they consume -/

theorem AgreeBelow_mono (buf buf1 : List Byte) (q q1 : Nat) (hq : q1 ≤ q)
    (h : AgreeBelow buf buf1 q) : AgreeBelow buf buf1 q1 :=
  ⟨h.1, fun j hj => h.2 j (by omega)⟩

theorem rbsp_read_bit_local : ReadsLocally rbsp_read_bit := by
  intro r a r1 h
  rw [rbsp_read_bit_eq] at h
  cases hb : bitAt r.buf r.pos with
  | none => rw [hb] at h; cases h
  | some x =>
    rw [hb] at h
    simp only [Option.map_some', Option.some.injEq, Prod.mk.injEq] at h
    obtain ⟨rfl, rfl⟩ := h
    refine ⟨rfl, by simp, fun buf1 hag => ?_⟩
    rw [rbsp_read_bit_eq]
    simp only
    rw [hag.2 r.pos (by simp), hb]
    rfl

theorem rbsp_read_bits_loop_local (n : Nat) :
    ∀ ret, ReadsLocally (rbsp_read_bits_loop n ret) := by
  induction n with
  | zero =>
    intro ret r a r1 h
    simp only [rbsp_read_bits_loop, Option.some.injEq, Prod.mk.injEq] at h
    obtain ⟨rfl, rfl⟩ := h
    exact ⟨rfl, le_refl _, fun buf1 _ => rfl⟩
  | succ n ih =>
    intro ret r a r1 h
    rw [rbsp_read_bits_loop] at h
    cases hb : rbsp_read_bit r with
    | none => rw [hb] at h; cases h
    | some p =>
      obtain ⟨b, r2⟩ := p
      rw [hb] at h
      simp only at h
      obtain ⟨e1, m1, t1⟩ := rbsp_read_bit_local r b r2 hb
      obtain ⟨e2, m2, t2⟩ := ih _ r2 a r1 h
      refine ⟨by rw [e2, e1], by omega, fun buf1 hag => ?_⟩
      rw [rbsp_read_bits_loop, t1 buf1 (AgreeBelow_mono _ _ _ _ m2 hag)]
      simp only
      have := t2 buf1 (by rw [e1]; exact hag)
      exact this

theorem rbsp_read_bits_local (n : Nat) : ReadsLocally (fun r => rbsp_read_bits r n) := by
  intro r a r1 h
  simp only [rbsp_read_bits] at h ⊢
  split_ifs at h with hn
  obtain ⟨e, m, t⟩ := rbsp_read_bits_loop_local n 0 r a r1 h
  refine ⟨e, m, fun buf1 hag => ?_⟩
  rw [if_neg hn]
  exact t buf1 hag

theorem rbsp_read_uev_loop_local (fuel : Nat) :
    ∀ lzb, ReadsLocally (rbsp_read_uev_loop fuel lzb) := by
  induction fuel with
  | zero => intro lzb r a r1 h; cases h
  | succ f ih =>
    intro lzb r a r1 h
    rw [rbsp_read_uev_loop] at h
    cases hb : rbsp_read_bit r with
    | none => rw [hb] at h; cases h
    | some p =>
      obtain ⟨b, r2⟩ := p
      rw [hb] at h
      simp only at h
      obtain ⟨e1, m1, t1⟩ := rbsp_read_bit_local r b r2 hb
      by_cases hb0 : b = 0
      · rw [if_pos hb0] at h
        obtain ⟨e2, m2, t2⟩ := ih _ r2 a r1 h
        refine ⟨by rw [e2, e1], by omega, fun buf1 hag => ?_⟩
        rw [rbsp_read_uev_loop, t1 buf1 (AgreeBelow_mono _ _ _ _ m2 hag)]
        simp only
        rw [if_pos hb0]
        exact t2 buf1 (by rw [e1]; exact hag)
      · rw [if_neg hb0] at h
        simp only [Option.some.injEq, Prod.mk.injEq] at h
        obtain ⟨rfl, rfl⟩ := h
        refine ⟨e1, m1, fun buf1 hag => ?_⟩
        rw [rbsp_read_uev_loop, t1 buf1 hag]
        simp only
        rw [if_neg hb0]

theorem rbsp_read_uev_local : ReadsLocally rbsp_read_uev := by
  intro r a r1 h
  unfold rbsp_read_uev at h
  cases hl : rbsp_read_uev_loop (8 * r.buf.length + 1) 0 r with
  | none => rw [hl] at h; cases h
  | some p =>
    obtain ⟨k, r2⟩ := p
    rw [hl] at h
    simp only at h
    obtain ⟨e1, m1, t1⟩ := rbsp_read_uev_loop_local _ 0 r k r2 hl
    by_cases h31 : 31 ≤ k
    · rw [if_pos h31] at h; cases h
    · rw [if_neg h31] at h
      by_cases h0 : 0 < k
      · rw [if_pos h0] at h
        cases hr : rbsp_read_bits r2 k with
        | none => rw [hr] at h; cases h
        | some q =>
          obtain ⟨t, r3⟩ := q
          rw [hr] at h
          simp only [Option.some.injEq, Prod.mk.injEq] at h
          obtain ⟨rfl, rfl⟩ := h
          obtain ⟨e2, m2, t2⟩ := rbsp_read_bits_local k r2 t r3 hr
          refine ⟨by rw [e2, e1], by omega, fun buf1 hag => ?_⟩
          unfold rbsp_read_uev
          simp only
          rw [hag.1, t1 buf1 (AgreeBelow_mono _ _ _ _ m2 hag)]
          simp only
          rw [if_neg h31, if_pos h0]
          have := t2 buf1 (by rw [e1]; exact hag)
          simp only at this
          rw [this]
      · rw [if_neg h0] at h
        simp only [Option.some.injEq, Prod.mk.injEq] at h
        obtain ⟨rfl, rfl⟩ := h
        refine ⟨e1, m1, fun buf1 hag => ?_⟩
        unfold rbsp_read_uev
        simp only
        rw [hag.1, t1 buf1 hag]
        simp only
        rw [if_neg h31, if_neg h0]

theorem rbsp_read_sev_local : ReadsLocally rbsp_read_sev := by
  intro r a r1 h
  unfold rbsp_read_sev at h
  cases hu : rbsp_read_uev r with
  | none => rw [hu] at h; cases h
  | some p =>
    obtain ⟨t, r2⟩ := p
    rw [hu] at h
    simp only at h
    obtain ⟨e1, m1, t1⟩ := rbsp_read_uev_local r t r2 hu
    by_cases hodd : t &&& 1 ≠ 0
    · rw [if_pos hodd] at h
      simp only [Option.some.injEq, Prod.mk.injEq] at h
      obtain ⟨rfl, rfl⟩ := h
      refine ⟨e1, m1, fun buf1 hag => ?_⟩
      unfold rbsp_read_sev
      rw [t1 buf1 hag]
      simp only
      rw [if_pos hodd]
    · rw [if_neg hodd] at h
      simp only [Option.some.injEq, Prod.mk.injEq] at h
      obtain ⟨rfl, rfl⟩ := h
      refine ⟨e1, m1, fun buf1 hag => ?_⟩
      unfold rbsp_read_sev
      rw [t1 buf1 hag]
      simp only
      rw [if_neg hodd]

theorem coda_sps_fixup_ref_frames_local (n : Nat) :
    SkipsLocally (coda_sps_fixup_ref_frames n) := by
  induction n with
  | zero =>
    intro r r1 h
    simp only [coda_sps_fixup_ref_frames, Option.some.injEq] at h
    subst h
    exact ⟨rfl, le_refl _, fun buf1 _ => rfl⟩
  | succ n ih =>
    intro r r1 h
    rw [coda_sps_fixup_ref_frames] at h
    cases hs : rbsp_read_sev r with
    | none => rw [hs] at h; cases h
    | some p =>
      obtain ⟨t, r2⟩ := p
      rw [hs] at h
      simp only at h
      obtain ⟨e1, m1, t1⟩ := rbsp_read_sev_local r t r2 hs
      obtain ⟨e2, m2, t2⟩ := ih r2 r1 h
      refine ⟨by rw [e2, e1], by omega, fun buf1 hag => ?_⟩
      rw [coda_sps_fixup_ref_frames, t1 buf1 (AgreeBelow_mono _ _ _ _ m2 hag)]
      simp only
      exact t2 buf1 (by rw [e1]; exact hag)

theorem coda_sps_fixup_poc_local (t : Nat) : SkipsLocally (coda_sps_fixup_poc t) := by
  intro r r1 h
  unfold coda_sps_fixup_poc at h ⊢
  by_cases h0 : t = 0
  · simp only [if_pos h0] at h ⊢
    obtain ⟨⟨a, s⟩, g1, h⟩ := Option.bind_eq_some.1 h
    simp only [pure, Option.some.injEq] at h
    subst h
    obtain ⟨e1, m1, t1⟩ := rbsp_read_uev_local r a s g1
    refine ⟨e1, m1, fun buf1 hag => ?_⟩
    simp only [Option.bind_eq_bind, t1 buf1 hag, Option.some_bind, pure]
  · by_cases h1 : t = 1
    · simp only [if_neg h0, if_pos h1] at h ⊢
      obtain ⟨⟨a1, s1⟩, g1, h⟩ := Option.bind_eq_some.1 h
      obtain ⟨⟨a2, s2⟩, g2, h⟩ := Option.bind_eq_some.1 h
      obtain ⟨⟨a3, s3⟩, g3, h⟩ := Option.bind_eq_some.1 h
      obtain ⟨⟨a4, s4⟩, g4, h⟩ := Option.bind_eq_some.1 h
      simp only at h
      obtain ⟨e1, m1, t1⟩ := rbsp_read_bit_local r a1 s1 g1
      obtain ⟨e2, m2, t2⟩ := rbsp_read_sev_local s1 a2 s2 g2
      obtain ⟨e3, m3, t3⟩ := rbsp_read_sev_local s2 a3 s3 g3
      obtain ⟨e4, m4, t4⟩ := rbsp_read_uev_local s3 a4 s4 g4
      obtain ⟨e5, m5, t5⟩ := coda_sps_fixup_ref_frames_local a4 s4 r1 h
      have b1 : s1.buf = r.buf := e1
      have b2 : s2.buf = r.buf := by rw [e2, b1]
      have b3 : s3.buf = r.buf := by rw [e3, b2]
      have b4 : s4.buf = r.buf := by rw [e4, b3]
      refine ⟨by rw [e5, b4], by omega, fun buf1 hag => ?_⟩
      simp only [Option.bind_eq_bind,
        t1 buf1 (AgreeBelow_mono _ _ _ _ (by omega) hag), Option.some_bind,
        t2 buf1 (by rw [b1]; exact AgreeBelow_mono _ _ _ _ (by omega) hag),
        t3 buf1 (by rw [b2]; exact AgreeBelow_mono _ _ _ _ (by omega) hag),
        t4 buf1 (by rw [b3]; exact AgreeBelow_mono _ _ _ _ (by omega) hag),
        t5 buf1 (by rw [b4]; exact hag)]
    · simp only [if_neg h0, if_neg h1, pure, Option.some.injEq] at h ⊢
      subst h
      exact ⟨rfl, le_refl _, fun buf1 _ => rfl⟩

theorem mb_adaptive_skip_local (flag : Nat) :
    SkipsLocally (fun sps =>
      if flag = 0 then (rbsp_read_bit sps).map Prod.snd else some sps) := by
  intro r r1 h
  simp only at h ⊢
  by_cases h0 : flag = 0
  · simp only [if_pos h0] at h ⊢
    cases hb : rbsp_read_bit r with
    | none => rw [hb] at h; cases h
    | some p =>
      obtain ⟨b, r2⟩ := p
      rw [hb] at h
      simp only [Option.map_some', Option.some.injEq] at h
      subst h
      obtain ⟨e1, m1, t1⟩ := rbsp_read_bit_local r b r2 hb
      refine ⟨e1, m1, fun buf1 hag => ?_⟩
      rw [t1 buf1 hag]
      rfl
  · simp only [if_neg h0, Option.some.injEq] at h ⊢
    subst h
    exact ⟨rfl, le_refl _, fun buf1 _ => rfl⟩

theorem coda_sps_fixup_header_local (buf buf1 : List Byte) (h : SpsHeader)
    (hh : coda_sps_fixup_header buf = some h)
    (hag : AgreeBelow (buf.drop 5) (buf1.drop 5) h.sps.pos) :
    coda_sps_fixup_header buf1 =
      some { h with sps := { buf := buf1.drop 5, pos := h.sps.pos } } := by
  unfold coda_sps_fixup_header at hh
  obtain ⟨⟨a1, s1⟩, h1, hh⟩ := Option.bind_eq_some.1 hh
  obtain ⟨⟨a2, s2⟩, h2, hh⟩ := Option.bind_eq_some.1 hh
  obtain ⟨⟨a3, s3⟩, h3, hh⟩ := Option.bind_eq_some.1 hh
  simp only [pure, Option.some.injEq] at hh
  subst hh
  simp only at hag
  obtain ⟨e1, m1, t1⟩ := rbsp_read_bits_local 8 _ a1 s1 h1
  obtain ⟨e2, m2, t2⟩ := rbsp_read_bits_local 8 _ a2 s2 h2
  obtain ⟨e3, m3, t3⟩ := rbsp_read_uev_local s2 a3 s3 h3
  simp only at e1 m1 t1 e2 m2 t2
  have b2 : s2.buf = buf.drop 5 := by rw [e2, e1]
  unfold coda_sps_fixup_header
  simp only [Option.bind_eq_bind,
    t1 (buf1.drop 5) (AgreeBelow_mono _ _ _ _ (by omega) hag), Option.some_bind,
    t2 (buf1.drop 5) (by rw [e1]; exact AgreeBelow_mono _ _ _ _ (by omega) hag),
    t3 (buf1.drop 5) (by rw [b2]; exact hag), pure]

theorem coda_sps_fixup_fields_local (sps : Rbsp) (f : SpsFields) (X : List Byte)
    (cr cb : Nat) (hcr : cr ≤ 7) (hcb : cb ≤ 7)
    (hf : coda_sps_fixup_fields sps = some f)
    (hag : AgreeBelow sps.buf X f.pos)
    (hbits : BitsAt X f.pos (cropBits cr cb 0)) :
    sps.pos ≤ f.pos ∧
    ∃ f1, coda_sps_fixup_fields { buf := X, pos := sps.pos } = some f1 ∧
      f1.pos = f.pos ∧ f1.frame_mbs_only_flag = f.frame_mbs_only_flag ∧
      f1.vui_parameters_present_flag = 0 := by
  unfold coda_sps_fixup_fields at hf
  obtain ⟨⟨a1, s1⟩, h1, hf⟩ := Option.bind_eq_some.1 hf
  obtain ⟨⟨a2, s2⟩, h2, hf⟩ := Option.bind_eq_some.1 hf
  obtain ⟨s3, h3, hf⟩ := Option.bind_eq_some.1 hf
  obtain ⟨⟨a4, s4⟩, h4, hf⟩ := Option.bind_eq_some.1 hf
  obtain ⟨⟨a5, s5⟩, h5, hf⟩ := Option.bind_eq_some.1 hf
  obtain ⟨⟨a6, s6⟩, h6, hf⟩ := Option.bind_eq_some.1 hf
  obtain ⟨⟨a7, s7⟩, h7, hf⟩ := Option.bind_eq_some.1 hf
  obtain ⟨⟨a8, s8⟩, h8, hf⟩ := Option.bind_eq_some.1 hf
  obtain ⟨s9, h9, hf⟩ := Option.bind_eq_some.1 hf
  obtain ⟨⟨a10, s10⟩, h10, hf⟩ := Option.bind_eq_some.1 hf
  obtain ⟨⟨a11, s11⟩, h11, hf⟩ := Option.bind_eq_some.1 hf
  obtain ⟨s12, h12, hf⟩ := Option.bind_eq_some.1 hf
  obtain ⟨⟨a13, s13⟩, h13, hf⟩ := Option.bind_eq_some.1 hf
  simp only [pure, Option.some.injEq] at hf
  subst hf
  simp only at hag hbits
  obtain ⟨e1, m1, t1⟩ := rbsp_read_uev_local sps a1 s1 h1
  obtain ⟨e2, m2, t2⟩ := rbsp_read_uev_local s1 a2 s2 h2
  obtain ⟨e3, m3, t3⟩ := coda_sps_fixup_poc_local a2 s2 s3 h3
  obtain ⟨e4, m4, t4⟩ := rbsp_read_uev_local s3 a4 s4 h4
  obtain ⟨e5, m5, t5⟩ := rbsp_read_bit_local s4 a5 s5 h5
  obtain ⟨e6, m6, t6⟩ := rbsp_read_uev_local s5 a6 s6 h6
  obtain ⟨e7, m7, t7⟩ := rbsp_read_uev_local s6 a7 s7 h7
  obtain ⟨e8, m8, t8⟩ := rbsp_read_bit_local s7 a8 s8 h8
  obtain ⟨e9, m9, t9⟩ := mb_adaptive_skip_local a8 s8 s9 h9
  obtain ⟨e10, m10, t10⟩ := rbsp_read_bit_local s9 a10 s10 h10
  have b1 : s1.buf = sps.buf := e1
  have b2 : s2.buf = sps.buf := by rw [e2, b1]
  have b3 : s3.buf = sps.buf := by rw [e3, b2]
  have b4 : s4.buf = sps.buf := by rw [e4, b3]
  have b5 : s5.buf = sps.buf := by rw [e5, b4]
  have b6 : s6.buf = sps.buf := by rw [e6, b5]
  have b7 : s7.buf = sps.buf := by rw [e7, b6]
  have b8 : s8.buf = sps.buf := by rw [e8, b7]
  have b9 : s9.buf = sps.buf := by rw [e9, b8]
  obtain ⟨r1, r2, r3, r4, r5, r6, r7, g1, g2, g3, g4, g5, g6, _⟩ :=
    cropBits_reads X s10.pos cr cb 0 hcr hcb hbits
  have u1 := t1 X (AgreeBelow_mono _ _ _ _ (by omega) hag)
  have u2 := t2 X (by rw [b1]; exact AgreeBelow_mono _ _ _ _ (by omega) hag)
  have u3 := t3 X (by rw [b2]; exact AgreeBelow_mono _ _ _ _ (by omega) hag)
  have u4 := t4 X (by rw [b3]; exact AgreeBelow_mono _ _ _ _ (by omega) hag)
  have u5 := t5 X (by rw [b4]; exact AgreeBelow_mono _ _ _ _ (by omega) hag)
  have u6 := t6 X (by rw [b5]; exact AgreeBelow_mono _ _ _ _ (by omega) hag)
  have u7 := t7 X (by rw [b6]; exact AgreeBelow_mono _ _ _ _ (by omega) hag)
  have u8 := t8 X (by rw [b7]; exact AgreeBelow_mono _ _ _ _ (by omega) hag)
  have u9 := t9 X (by rw [b8]; exact AgreeBelow_mono _ _ _ _ (by omega) hag)
  have u10 := t10 X (by rw [b9]; exact hag)
  simp only at u9
  refine ⟨by show sps.pos ≤ s10.pos; omega, ?_⟩
  refine ⟨{ pic_order_cnt_type := a2, max_num_ref_frames := a4,
             gaps_in_frame_num_value_allowed_flag := a5, pic_width_in_mbs_minus1 := a6,
             pic_height_in_map_units_minus1 := a7, frame_mbs_only_flag := a8,
             direct_8x8_inference_flag := a10, pos := s10.pos, frame_cropping_flag := 1,
             vui_parameters_present_flag := 0, sps := r6 }, ?_, rfl, rfl, rfl⟩
  clear h1 h2 h3 h4 h5 h6 h7 h8 h9 h10 h11 h12 h13 t1 t2 t3 t4 t5 t6 t7 t8 t9 t10
  unfold coda_sps_fixup_fields
  refine Option.bind_eq_some.2 ⟨_, u1, ?_⟩
  refine Option.bind_eq_some.2 ⟨_, u2, ?_⟩
  refine Option.bind_eq_some.2 ⟨_, u3, ?_⟩
  refine Option.bind_eq_some.2 ⟨_, u4, ?_⟩
  refine Option.bind_eq_some.2 ⟨_, u5, ?_⟩
  refine Option.bind_eq_some.2 ⟨_, u6, ?_⟩
  refine Option.bind_eq_some.2 ⟨_, u7, ?_⟩
  refine Option.bind_eq_some.2 ⟨_, u8, ?_⟩
  refine Option.bind_eq_some.2 ⟨_, u9, ?_⟩
  refine Option.bind_eq_some.2 ⟨_, u10, ?_⟩
  refine Option.bind_eq_some.2 ⟨_, g1, ?_⟩
  refine Option.bind_eq_some.2 ⟨r5, ?_, ?_⟩
  · rw [if_pos (by decide)]
    refine Option.bind_eq_some.2 ⟨_, g2, ?_⟩
    refine Option.bind_eq_some.2 ⟨_, g3, ?_⟩
    refine Option.bind_eq_some.2 ⟨_, g4, ?_⟩
    refine Option.bind_eq_some.2 ⟨_, g5, ?_⟩
    rfl
  · refine Option.bind_eq_some.2 ⟨_, g6, ?_⟩
    rfl

/-! ## Idempotence of `coda_sps_fixup` -/

theorem byte_ext (a b : Nat) (ha : a < 256) (hb : b < 256)
    (h : ∀ t, t ≤ 7 → (a >>> t) &&& 1 = (b >>> t) &&& 1) : a = b := by
  apply Nat.eq_of_testBit_eq
  intro i
  by_cases hi : i ≤ 7
  · have := h i hi
    rw [shr_and_one, shr_and_one] at this
    cases h1 : a.testBit i <;> cases h2 : b.testBit i <;> simp [h1, h2] at this <;> rfl
  · have p : (256 : Nat) ≤ 2 ^ i := by
      have : (2 : Nat) ^ 8 ≤ 2 ^ i := Nat.pow_le_pow_right (by norm_num) (by omega)
      simpa using this
    rw [Nat.testBit_lt_two_pow (by omega), Nat.testBit_lt_two_pow (by omega)]

theorem setBit_eq_self (buf : List Byte) (j b : Nat) (h : bitAt buf j = some b) :
    setBit buf j b = buf := by
  unfold bitAt at h
  unfold setBit
  cases hx : buf[j / 8]? with
  | none => rfl
  | some x =>
    rw [hx] at h
    simp only [Option.map_some', Option.some.injEq] at h
    simp only
    have hlt : j / 8 < buf.length := by
      by_contra hc
      rw [List.getElem?_eq_none (by omega)] at hx
      cases hx
    have hxe : buf[j / 8] = x := by
      rw [List.getElem?_eq_getElem hlt] at hx
      exact Option.some.inj hx
    have hbyte : toByte ((x.val &&& (0xff ^^^ BIT (7 - j % 8))) ||| (b <<< (7 - j % 8))) = x := by
      apply Fin.ext
      rw [toByte_val]
      apply byte_ext _ _ (Nat.mod_lt _ (by norm_num)) x.isLt
      intro t ht
      have hb1 : b ≤ 1 := by
        rw [← h, Nat.and_one_is_mod]
        omega
      rw [byte_set_bit _ _ _ _ (by omega) ht hb1]
      split_ifs with hts
      · rw [hts, h]
      · rfl
    rw [hbyte]
    apply List.ext_getElem?
    intro i
    by_cases hi : i = j / 8
    · subst hi
      rw [List.getElem?_set_self hlt, hx]
    · rw [List.getElem?_set_ne (fun e => hi e.symm)]

theorem writeBits_eq_self (buf : List Byte) (p : Nat) (bits : List Nat)
    (h : BitsAt buf p bits) : writeBits buf p bits = buf := by
  induction bits generalizing p with
  | nil => rfl
  | cons b bs ih =>
    rw [writeBits, setBit_eq_self buf p b h.1]
    exact ih (p + 1) h.2

/-- C19: when a first call of `coda_sps_fixup` with `(width, height)`
rewrites the SPS, a second call with the same width and height on the
resulting buffer and size leaves every byte unchanged and stores the same
size. -/
theorem sps_fixup_idempotent (width height : Nat) (buf : List Byte) (size : Int)
    (h : SpsHeader) (f : SpsFields)
    (hhdr : coda_sps_fixup_header buf = some h)
    (hprof : ¬ unsupported_profile h.profile_idc)
    (hfld : coda_sps_fixup_fields h.sps = some f)
    (hvui : f.vui_parameters_present_flag = 0)
    (hfit : f.pos + 5 + ue_len (crop_right width)
        + ue_len (crop_bottom height f.frame_mbs_only_flag) ≤ 8 * (buf.length - 5)) :
    ∃ buf1 size1,
      coda_sps_fixup width height buf size = some (buf1, size1) ∧
      coda_sps_fixup width height buf1 size1 = some (buf1, size1) := by
  have hcr := crop_right_le width
  have hcb := crop_bottom_le height f.frame_mbs_only_flag
  have hlen := cropBits_length (crop_right width) (crop_bottom height f.frame_mbs_only_flag) 0
    hcr hcb
  have hbits1 := cropBits_le_one (crop_right width) (crop_bottom height f.frame_mbs_only_flag) 0
    (by omega)
  have hfirst := coda_sps_fixup_rewrites width height buf size h f hhdr hprof hfld hvui hfit
  obtain ⟨hsbuf, _, _⟩ := coda_sps_fixup_fields_spec _ _ hfld
  obtain ⟨hhbuf, _⟩ := coda_sps_fixup_header_spec _ _ hhdr
  have htake : (buf.take 5).length = 5 := by rw [List.length_take]; omega
  have hX : BitsAt (writeBits (buf.drop 5) f.pos
      (cropBits (crop_right width) (crop_bottom height f.frame_mbs_only_flag) 0)) f.pos
      (cropBits (crop_right width) (crop_bottom height f.frame_mbs_only_flag) 0) :=
    BitsAt_writeBits _ _ _ hbits1 (by rw [hlen, List.length_drop]; omega)
  generalize hXdef : writeBits (buf.drop 5) f.pos
      (cropBits (crop_right width) (crop_bottom height f.frame_mbs_only_flag) 0) = X at hX hfirst
  have hXlen : X.length = (buf.drop 5).length := by rw [← hXdef, writeBits_length]
  have hag : AgreeBelow (buf.drop 5) X f.pos :=
    ⟨hXlen, fun j hj => by
      rw [← hXdef]
      exact bitAt_writeBits_outside _ _ _ _ hbits1 (Or.inl hj)⟩
  have hdrop : (buf.take 5 ++ X).drop 5 = X := List.drop_left' htake
  have htake1 : (buf.take 5 ++ X).take 5 = buf.take 5 := List.take_left' htake
  obtain ⟨hpos, f1, hfld1, hp1, hm1, hv1⟩ := coda_sps_fixup_fields_local h.sps f X
    (crop_right width) (crop_bottom height f.frame_mbs_only_flag) hcr hcb hfld
    (by rw [hhbuf]; exact hag) hX
  have hhdr1 : coda_sps_fixup_header (buf.take 5 ++ X) =
      some { h with sps := { buf := X, pos := h.sps.pos } } := by
    have := coda_sps_fixup_header_local buf (buf.take 5 ++ X) h hhdr
      (by rw [hdrop]; exact AgreeBelow_mono _ _ _ _ hpos hag)
    rw [hdrop] at this
    exact this
  have hlen1 : (buf.take 5 ++ X).length = buf.length := by
    rw [List.length_append, htake, hXlen, List.length_drop]; omega
  have hsecond := coda_sps_fixup_rewrites width height (buf.take 5 ++ X)
    ((5 + DIV_ROUND_UP (f.pos + 5 + ue_len (crop_right width)
              + ue_len (crop_bottom height f.frame_mbs_only_flag)) 8 : Nat) : Int)
    _ f1 hhdr1 hprof hfld1 hv1 (by rw [hp1, hm1, hlen1]; exact hfit)
  refine ⟨_, _, hfirst, ?_⟩
  rw [hsecond, hp1, hm1, hdrop, htake1, writeBits_eq_self X f.pos _ hX]

theorem sps_fixup_idempotent_witness :
    ∃ buf1 size1,
      coda_sps_fixup 100 100 sample_sps 11 = some (buf1, size1) ∧
      coda_sps_fixup 100 100 buf1 size1 = some (buf1, size1) :=
  sps_fixup_idempotent 100 100 sample_sps 11 sample_header sample_fields
    (by decide) (by decide) (by decide) (by decide)
    (by simp [ue_len, Nat.log2, sample_fields, sample_sps, crop_right, crop_bottom, round_up])

theorem sample_sps_fixed_eval :
    coda_sps_fixup 100 100 sample_sps_fixed 13 = some (sample_sps_fixed, 13) := by
  decide

end CodaH264
